import Mathlib

/-!
Verification of the borgini configuration-translation and command-assembly
pipeline (src/borgini/config.py, src/borgini/_core.py, src/borgini/parser.py)
against its natural-language specification.

The Python code is shallowly embedded below.  `configparser` semantics
(default-section inheritance, option lowercasing, strict duplicate handling,
ini serialization and parsing) are modelled explicitly, since `config.py`
relies on them.  Strings are handled as Lean `String`s at the interface and
as `List Char` inside the ini reader, mirroring the line-oriented CPython
reader.  Python exceptions are modelled with `Option`/`Except`.
-/

namespace Borgini

/-! ## Shared constants (config.py module constants) -/

/-- config.py: `NONE = "None"`, the null-marker string. -/
def NONE : String := "None"

/-- config.py: `DEFAULT = "DEFAULT"`, the name of the implicit default section. -/
def DEFAULT : String := "DEFAULT"

/-! ## Character-level string primitives

Python's `str.strip`, `str.split`, `str.lower`, `str.startswith` and friends
are modelled by structurally recursive functions over `List Char`, so that
every definition evaluates by kernel reduction.  (The corresponding Lean
`String` library functions use well-founded recursion and do not reduce.) -/

/-- Python whitespace (`str.strip` with no argument strips these). -/
def isPyWs (c : Char) : Bool :=
  c = ' ' || c = '\t' || c = '\n' || c = '\r' || c = '\x0b' || c = '\x0c'

/-- Python `str.lstrip()` on characters. -/
def lstripC (l : List Char) : List Char :=
  l.dropWhile isPyWs

/-- Python `str.rstrip()` on characters. -/
def rstripC : List Char → List Char
  | [] => []
  | c :: l =>
    let r := rstripC l
    if r.isEmpty && isPyWs c then [] else c :: r

/-- Python `str.strip()` on characters. -/
def stripC (l : List Char) : List Char :=
  rstripC (lstripC l)

/-- Python `str.strip()` at the `String` level. -/
def pyStrip (s : String) : String :=
  ⟨stripC s.data⟩

/-- Splitting on a separator character (Python `str.split(sep)` for a
one-character separator; also used for line splitting). -/
def splitOnChar (sep : Char) : List Char → List (List Char)
  | [] => [[]]
  | c :: r =>
    let s := splitOnChar sep r
    if c = sep then [] :: s
    else
      match s with
      | h :: t => (c :: h) :: t
      | [] => [[c]]

/-- `pre` is a leading substring of `s` (Python `str.startswith`). -/
def beginsWithAux : List Char → List Char → Bool
  | _, [] => true
  | [], _ :: _ => false
  | c :: cs, p :: ps => c == p && beginsWithAux cs ps

/-- Python `s.startswith(pre)`. -/
def beginsWith (s pre : String) : Bool :=
  beginsWithAux s.data pre.data

/-- Python `str.lower()` (ASCII, which is all the config keys use). -/
def lowerC (l : List Char) : List Char :=
  l.map Char.toLower

/-- Python `s.lower()` at the `String` level. -/
def pyLower (s : String) : String :=
  ⟨lowerC s.data⟩

/-! ## Path-list files (`_core.Data`)

`Data._read_datafile` reads the file, strips outer whitespace and splits into
lines; `_parse_datafile` drops full-line comments, truncates inline comments,
trims, and wraps each surviving line in single quotes.  A zero-length line
makes Python's `f[0]` raise `IndexError`, modelled as `none`. -/

/-- Data._read_datafile: `file.read().strip()` then `.splitlines()`.
Modelled for newline-delimited text: Python `splitlines` on a stripped
string agrees with splitting on `'\n'`, except that the empty string
yields no lines at all. -/
def readDatafile (content : String) : List String :=
  let s := stripC content.data
  if s.isEmpty then [] else (splitOnChar '\n' s).map List.asString

/-- The inline-comment stripping applied to one surviving line:
`f.split('#')[0].strip()`.  `f.split('#')[0]` is the longest segment of `f`
before the first `#`. -/
def stripComment (f : String) : String :=
  ⟨stripC (f.data.takeWhile (fun c => c != '#'))⟩

/-- The token built from one surviving line: `f"'{f.split('#')[0].strip()}'"`. -/
def quoteTok (f : String) : String :=
  "\x27" ++ stripComment f ++ "\x27"

/-- The comprehension guard `f[0] != "#"`, defined on the (nonempty) line.
On an empty line Python raises `IndexError`; this helper is only consulted
on nonempty lines and returns `false` there. -/
def firstCharHash (f : String) : Bool :=
  match f.toList with
  | [] => false
  | c :: _ => c == '#'

/-- Data._parse_datafile's comprehension
`[f"'{f.split('#')[0].strip()}'" for f in files if f[0] != "#"]`.
`f[0]` on an empty line raises `IndexError`, so the whole call fails
(`none`). -/
def parseDatafile : List String → Option (List String)
  | [] => some []
  | f :: fs =>
    match f.toList with
    | [] => none
    | c :: _ =>
      if c = '#' then parseDatafile fs
      else (parseDatafile fs).map (fun r => quoteTok f :: r)

/-- Data._format_exclude: `tuple(f"--exclude {e}" for e in pathlist)`. -/
def formatExclude (pathlist : List String) : List String :=
  pathlist.map (fun e => "--exclude " ++ e)

/-- Data.get_include on the parsed lines of the include file. -/
def getInclude (lines : List String) : Option (List String) :=
  parseDatafile lines

/-- Data.get_exclude on the parsed lines of the exclude file. -/
def getExclude (lines : List String) : Option (List String) :=
  (parseDatafile lines).map formatExclude

/-! ## Command assembly (`_core.BorgBackup`) -/

/-- BorgBackup.__init__: `self.repo = f"{repopath}/{args[0]}"`. -/
def mkRepo (repopath reponame : String) : String :=
  repopath ++ "/" ++ reponame

/-- BorgBackup.__init__: `self.archive = f"{self.repo}::{args[0]}-{self.date}"`,
with `self.date` (the strftime-formatted wall clock) taken as a parameter. -/
def mkArchive (repopath reponame date : String) : String :=
  mkRepo repopath reponame ++ "::" ++ reponame ++ "-" ++ date

/-- BorgBackup.create: `self.borg("create", *args, *exclude, f"{self.archive}", *include)`. -/
def borgCreateArgs (repopath reponame date : String)
    (args exclude incl : List String) : List String :=
  "create" :: args ++ exclude ++ [mkArchive repopath reponame date] ++ incl

/-- The loop inside BorgBackup._separate_keep:
`[args.pop(args.index(a)) for a in list(args) if a.startswith("--keep-")]`.
The first argument is the iterated copy `list(args)`, the second the mutated
list, the third the accumulated `keep` list.  `args.pop(args.index(a))`
removes the first occurrence of `a` and returns it. -/
def popKeepLoop : List String → List String → List String →
    List String × List String
  | [], cur, keep => (cur, keep)
  | a :: rest, cur, keep =>
    if beginsWith a "--keep-" then popKeepLoop rest (cur.erase a) (keep ++ [a])
    else popKeepLoop rest cur keep

/-- BorgBackup._separate_keep. -/
def separateKeep (args : List String) : List String × List String :=
  popKeepLoop args args []

/-- BorgBackup.prune: `self.borg("prune", *pruneargs, f"{self.repo}", *keep)`. -/
def borgPruneArgs (repopath reponame : String) (args : List String) :
    List String :=
  let p := separateKeep args
  "prune" :: p.1 ++ [mkRepo repopath reponame] ++ p.2

/-! ## Raw configuration state (`configparser.ConfigParser` contents)

A `ConfigParser` holds an insertion-ordered default section plus
insertion-ordered named sections, every value a string.  Assoc-list
operations mirror Python dict semantics (first occurrence wins; assignment
overwrites in place or appends). -/

structure IniState where
  defaults : List (String × String)
  sections : List (String × List (String × String))
deriving DecidableEq

/-- Python dict lookup in an insertion-ordered association list. -/
def lookupOpt (l : List (String × String)) (k : String) : Option String :=
  (l.find? (fun p => p.1 == k)).map (fun p => p.2)

/-- Python dict membership. -/
def keyMem (l : List (String × String)) (k : String) : Bool :=
  l.any (fun p => p.1 == k)

/-- Python dict assignment `d[k] = v`: overwrite in place, else append. -/
def setOpt (l : List (String × String)) (k v : String) :
    List (String × String) :=
  if keyMem l k then l.map (fun p => if p.1 == k then (k, v) else p)
  else l ++ [(k, v)]

/-- The named (non-default) section of a parser state, if present. -/
def getSection (st : IniState) (s : String) :
    Option (List (String × String)) :=
  (st.sections.find? (fun p => p.1 == s)).map (fun p => p.2)

/-- `ConfigParser.get(section, option)`: the option is passed through
`optionxform` (lowercasing), looked up in the section, falling back to the
default section; `none` models `NoSectionError`/`NoOptionError`. -/
def parserGet (st : IniState) (s k : String) : Option String :=
  let kl := pyLower k
  if s == DEFAULT then lookupOpt st.defaults kl
  else
    match getSection st s with
    | none => none
    | some own =>
      match lookupOpt own kl with
      | some v => some v
      | none => lookupOpt st.defaults kl

/-- `dict(parser[section])`: the section's own items (insertion order)
followed by the unshadowed default-section items; for the default section,
just the defaults.  A missing section raises `KeyError` in Python; callers
below guard that case, so the model returns `[]` there. -/
def sectionItems (st : IniState) (s : String) : List (String × String) :=
  if s == DEFAULT then st.defaults
  else
    match getSection st s with
    | none => []
    | some own => own ++ st.defaults.filter (fun p => !keyMem own p.1)

/-- RawConfig._load_default_values: the canonical schema defaults, written
through `ConfigParser.read_dict` (Python booleans serialize as
`"True"`/`"False"`); `hostname`/`user` are the runtime host and user
identities. -/
def loadDefaultValues (hostname user : String) : IniState :=
  { defaults :=
      [("reponame", hostname), ("repopath", NONE),
        ("timestamp", "%Y-%m-%dT%H:%M:%S"), ("ssh", "True"),
        ("prune", "True")]
    sections :=
      [("SSH",
          [("remoteuser", user), ("remotehost", hostname), ("port", "22")]),
        ("BACKUP",
          [("verbose", "True"), ("stats", "True"), ("list", "True"),
            ("show-rc", "True"), ("exclude-caches", "True"),
            ("filter", "AME"), ("compression", "lz4")]),
        ("PRUNE",
          [("verbose", "False"), ("stats", "True"), ("list", "True"),
            ("show-rc", "True"), ("keep-daily", "7"), ("keep-weekly", "4"),
            ("keep-monthly", "6")]),
        ("ENVIRONMENT", [("keyfile", NONE)])] }

/-! ## The typed view (`config.Proxy` and `config.Config`) -/

/-- Proxy.section_list: `self.parser.sections()` plus `DEFAULT` appended. -/
def sectionList (st : IniState) : List String :=
  st.sections.map (fun p => p.1) ++ [DEFAULT]

/-- Proxy._filter_default: all items for the default section, otherwise the
section's items with every key of the default section suppressed. -/
def filterDefault (st : IniState) (s : String) : List (String × String) :=
  if s == DEFAULT then st.defaults
  else (sectionItems st s).filter (fun p => !keyMem st.defaults p.1)

/-- Proxy._raw_dict. -/
def rawDict (st : IniState) : List (String × List (String × String)) :=
  (sectionList st).map (fun s => (s, filterDefault st s))

/-- Proxy._convert_null: drop every pair whose value is exactly `"None"`. -/
def convertNull (obj : List (String × List (String × String))) :
    List (String × List (String × String)) :=
  obj.map (fun sec => (sec.1, sec.2.filter (fun p => !(p.2 == NONE))))

/-- A value of the typed view: Python `bool` or `str`. -/
inductive CValue where
  | bool (b : Bool)
  | str (s : String)
deriving DecidableEq

/-- `ConfigParser.BOOLEAN_STATES`, consulted on the lowercased value by
`getboolean`. -/
def booleanStates (v : String) : Option Bool :=
  if v == "1" || v == "yes" || v == "true" || v == "on" then some true
  else if v == "0" || v == "no" || v == "off" || v == "false" then some false
  else none

/-- Proxy._get_boolean: keys with the retention prefix `keep-` raise
`ValueError` before any parse and fall back to the raw string from
`_filter_default`; otherwise `parser.getboolean` is tried, its `ValueError`
also falling back to the raw string.  An absent option would raise an
uncaught `NoOptionError`/`KeyError`, modelled as `none`. -/
def getBoolean (st : IniState) (s k : String) : Option CValue :=
  if beginsWith k "keep-" then
    (lookupOpt (filterDefault st s) k).map CValue.str
  else
    match parserGet st s k with
    | none => none
    | some v =>
      match booleanStates (pyLower v) with
      | some b => some (CValue.bool b)
      | none => (lookupOpt (filterDefault st s) k).map CValue.str

/-- A dict comprehension whose element computation may raise, modelled as a
traversal in `Option`. -/
def mapOpt (f : α → Option β) : List α → Option (List β)
  | [] => some []
  | a :: l =>
    match f a, mapOpt f l with
    | some b, some r => some (b :: r)
    | _, _ => none

/-- Proxy._convert_booleans. -/
def convertBooleans (st : IniState)
    (obj : List (String × List (String × String))) :
    Option (List (String × List (String × CValue))) :=
  mapOpt
    (fun sec =>
      (mapOpt (fun p => (getBoolean st sec.1 p.1).map (fun cv => (p.1, cv)))
          sec.2).map
        (fun l => (sec.1, l)))
    obj

/-- Proxy._filter_null: drop sections whose dict became empty (Python
truthiness of a dict). -/
def filterNull (d : List (String × List (String × CValue))) :
    List (String × List (String × CValue)) :=
  d.filter (fun sec => !sec.2.isEmpty)

/-- Proxy.convert_proxy: the full raw-to-typed conversion. -/
def convertProxy (st : IniState) :
    Option (List (String × List (String × CValue))) :=
  (convertBooleans st (convertNull (rawDict st))).map filterNull

/-- Lookup of a section in the typed dictionary. -/
def typedLookup (d : List (String × List (String × CValue))) (s : String) :
    Option (List (String × CValue)) :=
  (d.find? (fun p => p.1 == s)).map (fun p => p.2)

/-- Config.get_key: `self.dict[section][key]`, with `KeyError` (missing
section or key) caught and turned into `None`. -/
def getKeyD (d : List (String × List (String × CValue))) (s k : String) :
    Option CValue :=
  (typedLookup d s).bind (fun obj => (obj.find? (fun p => p.1 == k)).map (fun p => p.2))

/-- Config._get_flags: `[f"--{k}" for k, v in obj.items() if v is True]`. -/
def getFlags (obj : List (String × CValue)) : List String :=
  obj.filterMap
    (fun p =>
      match p.2 with
      | CValue.bool true => some ("--" ++ p.1)
      | _ => none)

/-- Config._get_keyvals:
`[f"--{k} {v}" for k, v in obj.items() if isinstance(v, str)]`. -/
def getKeyvals (obj : List (String × CValue)) : List String :=
  obj.filterMap
    (fun p =>
      match p.2 with
      | CValue.str v => some ("--" ++ p.1 ++ " " ++ v)
      | _ => none)

/-- Config.return_all: boolean flags first, then key-value flags; a missing
section raises `KeyError`, modelled as `none`. -/
def returnAll (d : List (String × List (String × CValue))) (s : String) :
    Option (List String) :=
  (typedLookup d s).map (fun obj => getFlags obj ++ getKeyvals obj)

/-! ## The boundary condition for a missing repository location
(`parser.Catch.check_repopath_config`) -/

/-- The typed condition the spec calls `MissingRepositoryLocation`. -/
inductive Condition where
  | missingRepositoryLocation
deriving DecidableEq

/-- Python falsiness of a `get_key` result (`None`, `False` or `""`). -/
def isFalsy : Option CValue → Bool
  | none => true
  | some (CValue.bool b) => !b
  | some (CValue.str v) => v == ""

/-- Catch.check_repopath_config: `if not repopath:` print a message and exit
with a non-zero status — modelled as the boundary signalling the
missing-repository-location condition instead of producing a locator. -/
def checkRepopathConfig (repopath : Option CValue) : Except Condition Unit :=
  if isFalsy repopath then Except.error Condition.missingRepositoryLocation
  else Except.ok ()

/-- funcs.get_path: the repository locator,
`f"ssh://{borguser}@{hostname}:{port}{repopath}"` when ssh else `repopath`. -/
def getPath (borguser hostname port repopath : String) (ssh : Bool) : String :=
  if ssh then "ssh://" ++ borguser ++ "@" ++ hostname ++ ":" ++ port ++ repopath
  else repopath

/-- Well-formedness a `ConfigParser` guarantees of its own state: section
names are unique and never the default section's name, and keys are unique
within each section. -/
def WFState (st : IniState) : Prop :=
  (st.sections.map Prod.fst).Nodup ∧
    DEFAULT ∉ st.sections.map Prod.fst ∧
    (st.defaults.map Prod.fst).Nodup ∧
    ∀ sec ∈ st.sections, (sec.2.map Prod.fst).Nodup

instance : DecidablePred WFState := fun st => by
  unfold WFState; infer_instance

/-! ## The repair/migration cycle (`RawConfig.read` + `write_values`)

`RawConfig.read` seeds a fresh parser with the schema defaults, reads the
file into a second parser, copies entries across under the precedence rule,
and rewrites the file.  The serializer (`ConfigParser.write`) and the
line-oriented reader (`ConfigParser._read`, strict mode, default comment
rules, no inline comments, no interpolation) are modelled below. -/

/-- `self.parser[section][key] = value`: `SectionProxy.__setitem__` →
`ConfigParser.set`, which lowercases the option via `optionxform` and
raises `KeyError` for an unknown (non-default) section. -/
def parserSetItem (st : IniState) (s k v : String) : Option IniState :=
  if s == DEFAULT then
    some { st with defaults := setOpt st.defaults (pyLower k) v }
  else
    if st.sections.any (fun p => p.1 == s) then
      some { st with
        sections := (st.sections.map
          (fun p => if p.1 == s then (p.1, setOpt p.2 (pyLower k) v) else p)) }
    else none

/-- One iteration of the copy loop in `RawConfig.read`: copy
`reader[section][key]` into the defaults-seeded parser when the section is
the default section or the key is not in the reader's default section
(`key not in reader[DEFAULT]` goes through `optionxform`), swallowing the
`KeyError` of an unknown section. -/
def readMergeStep (rdr : IniState) (st : IniState) (s : String)
    (kv : String × String) : IniState :=
  if s == DEFAULT || (s != DEFAULT && !keyMem rdr.defaults (pyLower kv.1)) then
    match parserSetItem st s kv.1 kv.2 with
    | some st2 => st2
    | none => st
  else st

/-- The in-memory effect of `RawConfig.read`: load the schema defaults, then
iterate the reader (default section first, then its sections in order),
copying each entry of `dict(reader[section])` under the precedence rule. -/
def readMerge (hostname user : String) (rdr : IniState) : IniState :=
  (DEFAULT :: rdr.sections.map (fun p => p.1)).foldl
    (fun acc s =>
      (sectionItems rdr s).foldl (fun a kv => readMergeStep rdr a s kv) acc)
    (loadDefaultValues hostname user)

/-- The `str(value).replace('\n', '\n\t')` of `ConfigParser._write_section`. -/
def replNl : List Char → List Char
  | [] => []
  | c :: r => if c = '\n' then '\n' :: '\t' :: replNl r else c :: replNl r

/-- One `key = value` line as written by `ConfigParser._write_section`
(delimiter `" = "`). -/
def optLine (p : String × String) : String :=
  p.1 ++ " = " ++ (⟨replNl p.2.data⟩ : String) ++ "\n"

/-- `ConfigParser._write_section`: the header line, one line per own item,
then a blank line. -/
def writeSectionBlock (name : String) (items : List (String × String)) :
    String :=
  "[" ++ name ++ "]\n" ++ String.join (items.map optLine) ++ "\n"

/-- `ConfigParser.write` as called by `RawConfig.write_values`: the DEFAULT
section block when the defaults are nonempty, then every section block in
storage order. -/
def writeValues (st : IniState) : String :=
  (if st.defaults.isEmpty then "" else writeSectionBlock DEFAULT st.defaults)
    ++ String.join (st.sections.map (fun p => writeSectionBlock p.1 p.2))

/-- The in-progress state of `ConfigParser._read`: option values are
accumulated as lists of line fragments (joined at the end by
`_join_multiline_values`), `cursect`/`optname` name the current section and
option, `indentLevel` is the indentation of the last non-continuation
line. -/
structure PState where
  defaults : List (String × List (List Char))
  sections : List (String × List (String × List (List Char)))
  cursect : Option String
  optname : Option String
  indentLevel : Nat

/-- `cursect[optname].append(segment)` (continuation lines and the
empty-line-in-value rule); a no-op without a current section and option. -/
def appendToCur (ps : PState) (seg : List Char) : PState :=
  match ps.cursect, ps.optname with
  | some sn, some optn =>
    if optn == "" then ps
    else if sn == DEFAULT then
      { ps with defaults := (ps.defaults.map
          (fun p => if p.1 == optn then (p.1, p.2 ++ [seg]) else p)) }
    else
      { ps with sections := (ps.sections.map
          (fun q =>
            if q.1 == sn then
              (q.1, q.2.map
                (fun p => if p.1 == optn then (p.1, p.2 ++ [seg]) else p))
            else q)) }
  | _, _ => ps

/-- `SECTCRE` (`\[(?P<header>[^]]+)\]`) matched at the start of the
stripped line: a `[`, one or more non-`]` characters, a `]`; anything after
the `]` is ignored by `re.match`. -/
def matchSectLine (value : List Char) : Option String :=
  match value with
  | '[' :: rest =>
    let hd := rest.takeWhile (fun c => !(c == ']'))
    if hd.isEmpty then none
    else
      match rest.drop hd.length with
      | ']' :: _ => some ⟨hd⟩
      | _ => none
  | _ => none

/-- The position of the first `=`/`:` delimiter in an option line
(`OPTCRE`'s non-greedy `(?P<option>.*?)\s*(?P<vi>=|:)`). -/
def findDelimIdx (value : List Char) : Option Nat :=
  value.findIdx? (fun c => c == '=' || c == ':')

/-- Membership in a pending-parse dict. -/
def keyMemV (l : List (String × List (List Char))) (k : String) : Bool :=
  l.any (fun p => p.1 == k)

/-- Parsing an option line in strict mode: split at the first delimiter,
rstrip and lowercase the name (empty name is a parse error), strip the
value; a duplicate option raises `DuplicateOptionError`. -/
def parseOptLine (ps : PState) (sect : String) (value : List Char) :
    Option PState :=
  match findDelimIdx value with
  | none => none
  | some i =>
    let rawName := rstripC (value.take i)
    if rawName.isEmpty then none
    else
      let optn : String := ⟨lowerC rawName⟩
      let ov : List Char := stripC (value.drop (i + 1))
      if sect == DEFAULT then
        if keyMemV ps.defaults optn then none
        else
          some { ps with
            defaults := (ps.defaults ++ [(optn, [ov])])
            optname := some optn }
      else
        match ps.sections.find? (fun q => q.1 == sect) with
        | none => none
        | some entry =>
          if keyMemV entry.2 optn then none
          else
            some { ps with
              sections := (ps.sections.map
                (fun q => if q.1 == sect then (q.1, q.2 ++ [(optn, [ov])]) else q))
              optname := some optn }

/-- A section header line: re-entering `[DEFAULT]` is always allowed; a
repeated named section raises `DuplicateSectionError` (strict mode); a new
section is appended. -/
def enterSection (ps : PState) (name : String) : Option PState :=
  if name == DEFAULT then
    some { ps with cursect := some DEFAULT, optname := none }
  else if ps.sections.any (fun q => q.1 == name) then none
  else
    some { ps with
      sections := (ps.sections ++ [(name, [])])
      cursect := some name
      optname := none }

/-- `NONSPACECRE.search(line)`: the index of the first non-whitespace
character (`0` when the line is all whitespace, which only the blank-line
branch ever sees). -/
def curIndentLevel (line : List Char) : Nat :=
  if line.all isPyWs then 0 else (line.takeWhile isPyWs).length

/-- One line of `ConfigParser._read`.  Full-line comments (`#`/`;` first
non-white character) are dropped; a blank line feeds the
empty-lines-in-values rule; an indented line under a pending option is a
continuation; otherwise the line is a section header or an option line.
All reader errors (strict duplicates, missing section header, unparsable
line, empty option name) abort the read, modelled as `none`. -/
def stepLine (ps : PState) (line : List Char) : Option PState :=
  let stripped := stripC line
  let isComment :=
    match stripped with
    | c :: _ => c == '#' || c == ';'
    | [] => false
  let value := if isComment then [] else stripped
  if value.isEmpty then
    if isComment then some ps else some (appendToCur ps [])
  else
    let ci := curIndentLevel line
    if ps.cursect.isSome
        && (match ps.optname with | some o2 => !(o2 == "") | none => false)
        && decide (ps.indentLevel < ci) then
      some (appendToCur ps value)
    else
      let ps2 := { ps with indentLevel := ci }
      match matchSectLine value with
      | some name => enterSection ps2 name
      | none =>
        match ps2.cursect with
        | none => none
        | some sect => parseOptLine ps2 sect value

/-- The reader state before the first line. -/
def initPState : PState :=
  { defaults := [], sections := [], cursect := none, optname := none,
    indentLevel := 0 }

/-- `_join_multiline_values`: `'\n'.join(fragments).rstrip()`. -/
def joinVal (parts : List (List Char)) : String :=
  ⟨rstripC (List.intercalate ['\n'] parts)⟩

/-- The finished reader state as an `IniState`. -/
def finalizeP (ps : PState) : IniState :=
  { defaults := ps.defaults.map (fun p => (p.1, joinVal p.2))
    sections := ps.sections.map
      (fun q => (q.1, q.2.map (fun p => (p.1, joinVal p.2)))) }

/-- `ConfigParser.read` on a file's text: fold the reader over the lines.
(Python iterates lines with their trailing newline; splitting on `'\n'`
adds one final empty line for a newline-terminated file, which the
empty-line rule absorbs.) -/
def parseIni (content : String) : Option IniState :=
  ((splitOnChar '\n' content.data).foldlM stepLine initPState).map finalizeP

/-- One full `RawConfig.read` pass as a file transformation: parse the
file, merge it over the schema defaults, write the result back. -/
def readCycle (hostname user : String) (content : String) : Option String :=
  (parseIni content).map (fun rdr => writeValues (readMerge hostname user rdr))

/-- The own (non-inherited) items of a named section, `[]` when absent. -/
def ownOf (st : IniState) (s : String) : List (String × String) :=
  (getSection st s).getD []

/-! ## Validity of persisted configuration states

These predicates delimit the "valid persisted RawConfig state" of the
round-trip claim: option keys and values that the ini wire format can
represent faithfully (no embedded newlines, no delimiter characters in
keys, outer whitespace already stripped, keys lowercase as `optionxform`
leaves them), unique keys and section names as `ConfigParser` guarantees. -/

/-- A value the `key = value` serialization round-trips: no embedded
newline, no outer whitespace. -/
def ValidVal (v : String) : Prop :=
  lstripC v.data = v.data ∧ rstripC v.data = v.data ∧ '\n' ∉ v.data

/-- A key the serialization round-trips: nonempty, already stripped and
lowercased (as `optionxform` leaves it), free of delimiter and newline
characters, and not starting like a comment or section header. -/
def ValidKey (k : String) : Prop :=
  k.data ≠ [] ∧ lstripC k.data = k.data ∧ rstripC k.data = k.data ∧
    lowerC k.data = k.data ∧
    '\n' ∉ k.data ∧ '=' ∉ k.data ∧ ':' ∉ k.data ∧
    k.data.headD ' ' ≠ '#' ∧ k.data.headD ' ' ≠ ';' ∧ k.data.headD ' ' ≠ '['

/-- A section name the `[name]` header round-trips. -/
def ValidSecName (n : String) : Prop :=
  n.data ≠ [] ∧ ']' ∉ n.data ∧ '\n' ∉ n.data ∧ n ≠ DEFAULT

/-- A well-formed section dict with representable keys and values. -/
def ValidItems (l : List (String × String)) : Prop :=
  (l.map Prod.fst).Nodup ∧ ∀ p ∈ l, ValidKey p.1 ∧ ValidVal p.2

/-- A reader state as produced by parsing any representable file
(`ConfigParser` never stores a section named `DEFAULT`). -/
def ValidReader (R : IniState) : Prop :=
  (R.sections.map Prod.fst).Nodup ∧ DEFAULT ∉ R.sections.map Prod.fst ∧
    ValidItems R.defaults ∧ ∀ sec ∈ R.sections, ValidItems sec.2

/-- A parser state whose serialization parses back to itself. -/
def ValidState (S : IniState) : Prop :=
  ValidReader S ∧ S.defaults ≠ [] ∧ ∀ sec ∈ S.sections, ValidSecName sec.1

/-! ## Abbreviations used by the repair-cycle proofs -/

/-- The combined effect of the copy loop on one seeded dict: a fold of dict
assignments. -/
def gFold (base items : List (String × String)) : List (String × String) :=
  items.foldl (fun acc kv => setOpt acc kv.1 kv.2) base

/-- The pointwise update `gFold` performs on the seeded part of the dict. -/
def updWith (items base : List (String × String)) : List (String × String) :=
  base.map
    (fun p =>
      (p.1, (((items.find? (fun q => q.1 == p.1)).map (fun q => q.2)).getD p.2)))

/-- The characters of one written option line, without the newline. -/
def optChars (p : String × String) : List Char :=
  p.1.data ++ ' ' :: '=' :: ' ' :: replNl p.2.data

/-- The lines of one written section block: header, option lines, blank. -/
def blockLinesC (n : String) (items : List (String × String)) :
    List (List Char) :=
  ('[' :: (n.data ++ [']'])) :: (items.map optChars ++ [[]])

/-- The character stream obtained by terminating each line with a newline. -/
def linesToChars (ls : List (List Char)) : List Char :=
  ls.foldr (fun l acc => l ++ '\n' :: acc) []

/-- The mid-parse invariant tying a reader state to the finalized data it
will produce: the pending fragments finalize to the given dicts, the cursor
is on the given section, and no line has been indented. -/
def MidParse (ps : PState) (D : List (String × String))
    (Secs : List (String × List (String × String))) (sect : String) : Prop :=
  finalizeP ps = { defaults := D, sections := Secs } ∧
    ps.cursect = some sect ∧ ps.indentLevel = 0

/-! ## Helper lemmas for the path-list model -/

theorem string_data_append (a b : String) : (a ++ b).data = a.data ++ b.data := by
  cases a; cases b; rfl

theorem string_ext {a b : String} (h : a.data = b.data) : a = b := by
  cases a; cases b; cases h; rfl

theorem string_append_assoc (a b c : String) : a ++ b ++ c = a ++ (b ++ c) := by
  apply string_ext
  rw [string_data_append, string_data_append, string_data_append,
    string_data_append, List.append_assoc]

theorem toList_eq_nil_iff (f : String) : f.toList = [] ↔ f = "" := by
  constructor
  · intro h
    cases f with
    | mk data => simpa [String.toList] using congrArg String.mk h
  · intro h; subst h; rfl

theorem parseDatafile_eq_of_nonempty (lines : List String)
    (hne : ∀ f ∈ lines, f ≠ "") :
    parseDatafile lines =
      some ((lines.filter (fun f => !firstCharHash f)).map quoteTok) := by
  induction lines with
  | nil => rfl
  | cons f fs ih =>
    have hf : f ≠ "" := hne f (List.mem_cons_self f fs)
    have hfs : ∀ g ∈ fs, g ≠ "" := fun g hg => hne g (List.mem_cons_of_mem f hg)
    have hihn := ih hfs
    rcases hc : f.toList with _ | ⟨c, rest⟩
    · exact absurd ((toList_eq_nil_iff f).mp hc) hf
    · have hcd : f.data = c :: rest := hc
      by_cases h : c = '#'
      · have hhash : firstCharHash f = true := by
          unfold firstCharHash; rw [hc]; simp [h]
        simp [parseDatafile, hcd, if_pos h, hihn, List.filter_cons, hhash]
      · have hhash : firstCharHash f = false := by
          unfold firstCharHash; rw [hc]; simp [h]
        simp [parseDatafile, hcd, if_neg h, hihn, List.filter_cons, hhash]

theorem parseDatafile_none_of_mem_empty (lines : List String)
    (h : "" ∈ lines) : parseDatafile lines = none := by
  induction lines with
  | nil => cases h
  | cons f fs ih =>
    rcases List.mem_cons.mp h with h1 | h1
    · subst h1; rfl
    · rcases hc : f.toList with _ | ⟨c, rest⟩
      · have hcd : f.data = [] := hc
        simp [parseDatafile, hcd]
      · have hcd : f.data = c :: rest := hc
        by_cases hch : c = '#'
        · simp [parseDatafile, hcd, if_pos hch, ih h1]
        · simp [parseDatafile, hcd, if_neg hch, ih h1]

/-! ## Lemmas about `_separate_keep` -/

theorem popKeepLoop_eq (c : List String) :
    ∀ cur keep, popKeepLoop c cur keep =
      ((c.filter (fun a => beginsWith a "--keep-")).foldl List.erase cur,
        keep ++ c.filter (fun a => beginsWith a "--keep-")) := by
  induction c with
  | nil => intro cur keep; simp [popKeepLoop]
  | cons a rest ih =>
    intro cur keep
    by_cases h : beginsWith a "--keep-"
    · simp [popKeepLoop, h, ih]
    · simp [popKeepLoop, h, ih]

theorem foldl_erase_cons_of_all (p : String → Bool) (l : List String)
    (hall : ∀ b ∈ l, p b = true) (a : String) (ha : p a = false) :
    ∀ t, l.foldl List.erase (a :: t) = a :: l.foldl List.erase t := by
  induction l with
  | nil => intro t; rfl
  | cons b bs ih =>
    intro t
    have hb : p b = true := hall b (List.mem_cons_self b bs)
    have hab : (a == b) = false := by
      apply beq_eq_false_iff_ne.mpr
      intro hEq; rw [hEq, hb] at ha; cases ha
    have hbs : ∀ x ∈ bs, p x = true := fun x hx =>
      hall x (List.mem_cons_of_mem b hx)
    simp only [List.foldl_cons, List.erase_cons, hab]
    exact ih hbs (t.erase b)

theorem filter_foldl_erase_self (p : String → Bool) (l : List String) :
    (l.filter p).foldl List.erase l = l.filter (fun a => !p a) := by
  induction l with
  | nil => rfl
  | cons a t ih =>
    by_cases h : p a
    · have : ((a :: t).filter p) = a :: t.filter p := by simp [List.filter_cons, h]
      rw [this]
      simp only [List.foldl_cons, List.erase_cons_head]
      rw [ih]
      simp [List.filter_cons, h]
    · have : ((a :: t).filter p) = t.filter p := by
        simp [List.filter_cons, h]
      rw [this]
      have hall : ∀ b ∈ t.filter p, p b = true := fun b hb =>
        (List.mem_filter.mp hb).2
      rw [foldl_erase_cons_of_all p (t.filter p) hall a (by simpa using h) t, ih]
      simp [List.filter_cons, h]

theorem separateKeep_eq (args : List String) :
    separateKeep args =
      (args.filter (fun a => !beginsWith a "--keep-"),
        args.filter (fun a => beginsWith a "--keep-")) := by
  rw [separateKeep, popKeepLoop_eq]
  rw [filter_foldl_erase_self]
  simp

/-! ## Claim C7 -/

/-- Claim C7 (confirmed): `prune` assembly partitions off the `--keep-*`
tokens and emits `prune`, the non-retention tokens in original order, the
bare repository locator, then the retention tokens in original order. -/
theorem prune_args_retention_partition (repopath reponame : String)
    (args : List String) :
    borgPruneArgs repopath reponame args =
      "prune" :: args.filter (fun a => !beginsWith a "--keep-")
        ++ [mkRepo repopath reponame]
        ++ args.filter (fun a => beginsWith a "--keep-")
    ∧ borgPruneArgs "/r" "host" ["--verbose", "--keep-daily 7", "--stats"] =
      ["prune", "--verbose", "--stats", "/r/host", "--keep-daily 7"] := by
  constructor
  · rw [borgPruneArgs, separateKeep_eq]
  · decide

/-! ## Claim C6 -/

/-- Claim C6 (confirmed): the `create` argument vector is exactly the literal
token `create`, all flags, all exclude tokens, the single archive locator
`{repo}::{basename}-{timestamp}`, then all include tokens; in particular every
exclude token precedes the locator and the locator precedes every include
token. -/
theorem create_args_order (repopath reponame date : String)
    (args exclude incl : List String) :
    borgCreateArgs repopath reponame date args exclude incl =
      "create" :: args ++ exclude
        ++ [mkRepo repopath reponame ++ "::" ++ reponame ++ "-" ++ date]
        ++ incl
    ∧ (borgCreateArgs repopath reponame date args exclude incl).take
        (1 + args.length + exclude.length) = "create" :: args ++ exclude
    ∧ (borgCreateArgs repopath reponame date args exclude incl).drop
        (1 + args.length + exclude.length) =
        mkArchive repopath reponame date :: incl := by
  have hsplit : borgCreateArgs repopath reponame date args exclude incl =
      ("create" :: (args ++ exclude)) ++
        (mkArchive repopath reponame date :: incl) := by
    simp [borgCreateArgs]
  have hlen : ("create" :: (args ++ exclude)).length =
      1 + args.length + exclude.length := by
    simp; omega
  refine ⟨rfl, ?_, ?_⟩
  · rw [hsplit, List.take_left' hlen]; rfl
  · rw [hsplit, List.drop_left' hlen]

/-! ## Claims C8 and C10 -/

/-- Claim C8, counterexample: a blank (zero-length) line does not yield an
empty-string token — `f[0]` raises `IndexError` and the parse produces no
token list at all; moreover the token produced from an inline-comment line is
single-quoted, not the bare path. -/
theorem blank_line_crashes_datafile_parse :
    parseDatafile ["/home", "", "/var"] = none ∧
    parseDatafile ["/var/cache/* # temp files"] =
      some ["\x27/var/cache/*\x27"] := by
  constructor
  · rfl
  · rfl

/-- Claim C8 (amended): a line whose first character is `#` contributes no
token; a surviving line is truncated at the first `#`, whitespace-trimmed and
wrapped in single quotes (so `"/var/cache/* # temp files"` contributes the
token `'/var/cache/*'`, and a whitespace-then-comment line contributes `''`);
a literally blank (zero-length) line raises an error instead of yielding an
empty token. -/
theorem datafile_comment_rules (lines : List String)
    (hne : ∀ f ∈ lines, f ≠ "") :
    parseDatafile lines =
      some ((lines.filter (fun f => !firstCharHash f)).map quoteTok)
    ∧ (∀ l : List String, "" ∈ l → parseDatafile l = none)
    ∧ quoteTok "/var/cache/* # temp files" = "\x27/var/cache/*\x27"
    ∧ quoteTok " # comment only" = "\x27\x27" := by
  exact ⟨parseDatafile_eq_of_nonempty lines hne,
    fun l hl => parseDatafile_none_of_mem_empty l hl, rfl, rfl⟩

/-- Witness for `datafile_comment_rules`. -/
theorem datafile_comment_rules_witness :
    parseDatafile ["/var/cache/* # temp files", "# dropped", "/home"] =
      some ["\x27/var/cache/*\x27", "\x27/home\x27"] :=
  (datafile_comment_rules ["/var/cache/* # temp files", "# dropped", "/home"]
    (by decide)).1.trans (by rfl)

/-- Claim C10 (confirmed): every token produced from a path-list file is
wrapped in literal single quotes: each surviving line `f` contributes the
include token `'f-stripped'` and the exclude token `--exclude 'f-stripped'`
(one single string per line). -/
theorem datafile_tokens_single_quoted (lines : List String)
    (hne : ∀ f ∈ lines, f ≠ "") :
    getInclude lines =
      some ((lines.filter (fun f => !firstCharHash f)).map
        (fun f => "\x27" ++ stripComment f ++ "\x27"))
    ∧ getExclude lines =
      some ((lines.filter (fun f => !firstCharHash f)).map
        (fun f => "--exclude \x27" ++ stripComment f ++ "\x27")) := by
  have h := parseDatafile_eq_of_nonempty lines hne
  have hq : quoteTok = (fun f => "\x27" ++ stripComment f ++ "\x27") := by
    funext f; rfl
  constructor
  · rw [getInclude, h, hq]
  · rw [getExclude, h]
    refine congrArg some ?_
    rw [formatExclude, List.map_map]
    apply List.map_congr_left
    intro f _
    show "--exclude " ++ quoteTok f = _
    rw [quoteTok, ← string_append_assoc, ← string_append_assoc]
    rfl

/-- Witness for `datafile_tokens_single_quoted`. -/
theorem datafile_tokens_single_quoted_witness :
    getExclude ["/var/tmp/* # scratch", "# note", "/proc"] =
      some ["--exclude \x27/var/tmp/*\x27", "--exclude \x27/proc\x27"] :=
  (datafile_tokens_single_quoted ["/var/tmp/* # scratch", "# note", "/proc"]
    (by decide)).2.trans (by rfl)

/-! ## Generic association-list lemmas for the typed-view proofs -/

theorem find?_cons_true {α : Type} (q : α → Bool) (a : α) (t : List α)
    (hq : q a = true) : (a :: t).find? q = some a := by
  simp [List.find?_cons, hq]

theorem find?_cons_false {α : Type} (q : α → Bool) (a : α) (t : List α)
    (hq : q a = false) : (a :: t).find? q = t.find? q := by
  simp [List.find?_cons, hq]

theorem find?_filter_keep {α : Type} (l : List α) (q P : α → Bool) (pr : α)
    (h : l.find? q = some pr) (hP : P pr = true) :
    (l.filter P).find? q = some pr := by
  induction l with
  | nil => cases h
  | cons a t ih =>
    rcases hq : q a with _ | _
    · rw [find?_cons_false q a t hq] at h
      by_cases hPa : P a
      · rw [List.filter_cons_of_pos hPa, find?_cons_false q a _ hq]
        exact ih h
      · rw [List.filter_cons_of_neg hPa]
        exact ih h
    · rw [find?_cons_true q a t hq] at h
      cases h
      rw [List.filter_cons_of_pos hP, find?_cons_true q _ _ hq]

theorem keyMem_of_mem {β : Type} (l : List (String × β)) (p : String × β)
    (hp : p ∈ l) : l.any (fun q => q.1 == p.1) = true := by
  exact List.any_eq_true.mpr ⟨p, hp, by simp⟩

theorem find?_key_eq {β : Type} (l : List (String × β)) (k : String)
    (pr : String × β) (h : l.find? (fun p => p.1 == k) = some pr) :
    pr.1 = k := by
  have := List.find?_some h
  simpa using this

theorem nodup_fst_cons {β : Type} (a : String × β) (t : List (String × β))
    (hnd : ((a :: t).map Prod.fst).Nodup) :
    a.1 ∉ t.map Prod.fst ∧ (t.map Prod.fst).Nodup := by
  rw [List.map_cons] at hnd
  exact List.nodup_cons.mp hnd

theorem find?_filter_drop_nodup {β : Type} (l : List (String × β)) (k : String)
    (P : String × β → Bool) (pr : String × β)
    (hnd : (l.map Prod.fst).Nodup)
    (h : l.find? (fun p => p.1 == k) = some pr) (hP : P pr = false) :
    (l.filter P).find? (fun p => p.1 == k) = none := by
  induction l with
  | nil => cases h
  | cons a t ih =>
    obtain ⟨hnd1, hnd2⟩ := nodup_fst_cons a t hnd
    rcases hq : ((fun p => p.1 == k) a) with _ | _
    · rw [find?_cons_false _ a t hq] at h
      by_cases hPa : P a
      · rw [List.filter_cons_of_pos hPa, find?_cons_false _ a _ hq]
        exact ih hnd2 h
      · rw [List.filter_cons_of_neg hPa]
        exact ih hnd2 h
    · rw [find?_cons_true _ a t hq] at h
      injection h with h2
      subst h2
      have hak : a.1 = k := by simpa using hq
      rw [List.filter_cons_of_neg (by simp [hP])]
      apply List.find?_eq_none.mpr
      intro x hx
      have hxk : x.1 ∈ t.map Prod.fst :=
        List.mem_map_of_mem _ (List.mem_of_mem_filter hx)
      simp only [Bool.not_eq_true, beq_eq_false_iff_ne, ne_eq]
      intro hxe
      rw [hxe, ← hak] at hxk
      exact hnd1 hxk

theorem find?_filter_key_all {β : Type} (l : List (String × β)) (k : String)
    (Q : String × β → Bool)
    (hQ : ∀ p ∈ l, (p.1 == k) = true → Q p = true) :
    (l.filter Q).find? (fun p => p.1 == k) = l.find? (fun p => p.1 == k) := by
  induction l with
  | nil => rfl
  | cons a t ih =>
    have hQt : ∀ p ∈ t, (p.1 == k) = true → Q p = true := fun p hp =>
      hQ p (List.mem_cons_of_mem a hp)
    rcases hq : ((fun p => p.1 == k) a) with _ | _
    · by_cases hPa : Q a
      · rw [List.filter_cons_of_pos hPa, find?_cons_false _ a _ hq,
          find?_cons_false _ a t hq]
        exact ih hQt
      · rw [List.filter_cons_of_neg hPa, find?_cons_false _ a t hq]
        exact ih hQt
    · have hQa : Q a = true := hQ a (List.mem_cons_self a t) (by simpa using hq)
      rw [List.filter_cons_of_pos hQa, find?_cons_true _ a _ hq,
        find?_cons_true _ a t hq]

theorem mapOpt_keyed {β γ : Type} (F : String → Option γ)
    (l : List (String × β)) (r : List (String × γ))
    (h : mapOpt (fun p => (F p.1).map (fun cv => (p.1, cv))) l = some r)
    (k : String) :
    r.find? (fun p => p.1 == k) =
      (l.find? (fun p => p.1 == k)).bind
        (fun p => (F p.1).map (fun cv => (p.1, cv))) := by
  induction l generalizing r with
  | nil =>
    cases h
    rfl
  | cons a t ih =>
    rcases hFa : F a.1 with _ | c
    · rw [mapOpt] at h
      simp [hFa] at h
    · rcases hmt : mapOpt (fun p => (F p.1).map (fun cv => (p.1, cv))) t
        with _ | r2
      · rw [mapOpt] at h
        simp [hFa, hmt] at h
      · rw [mapOpt] at h
        simp only [hFa, hmt, Option.map_some'] at h
        cases h
        rcases hq : ((fun p => p.1 == k) a) with _ | _
        · rw [find?_cons_false _ a t hq]
          rw [find?_cons_false _ (a.1, c) r2 (by simpa using hq)]
          exact ih r2 hmt
        · rw [find?_cons_true _ a t hq]
          rw [find?_cons_true _ (a.1, c) r2 (by simpa using hq)]
          simp [hFa]

theorem mapOpt_map_comp {α β γ : Type} (f : β → Option γ) (h : α → β)
    (l : List α) : mapOpt f (l.map h) = mapOpt (fun a => f (h a)) l := by
  induction l with
  | nil => rfl
  | cons a t ih => rw [List.map_cons, mapOpt, mapOpt, ih]

theorem mapOpt_sections_keys (g : String → Option (List (String × CValue)))
    (names : List String) (db : List (String × List (String × CValue)))
    (h : mapOpt (fun s2 => (g s2).map (fun l => (s2, l))) names = some db) :
    db.map Prod.fst = names := by
  induction names generalizing db with
  | nil => cases h; rfl
  | cons n rest ih =>
    rcases hg : g n with _ | objn
    · rw [mapOpt] at h; simp [hg] at h
    · rcases hmt : mapOpt (fun s2 => (g s2).map (fun l => (s2, l))) rest
        with _ | db2
      · rw [mapOpt] at h; simp [hg, hmt] at h
      · rw [mapOpt] at h
        simp only [hg, hmt, Option.map_some'] at h
        cases h
        simp [ih db2 hmt]

theorem mapOpt_sections_find (g : String → Option (List (String × CValue)))
    (names : List String) (db : List (String × List (String × CValue)))
    (h : mapOpt (fun s2 => (g s2).map (fun l => (s2, l))) names = some db)
    (s : String) (hs : s ∈ names) :
    ∃ obj, g s = some obj ∧
      (filterNull db).find? (fun p => p.1 == s) =
        (if obj.isEmpty then none else some (s, obj)) := by
  induction names generalizing db with
  | nil => cases hs
  | cons n rest ih =>
    rcases hg : g n with _ | objn
    · rw [mapOpt] at h; simp [hg] at h
    · rcases hmt : mapOpt (fun s2 => (g s2).map (fun l => (s2, l))) rest
        with _ | db2
      · rw [mapOpt] at h; simp [hg, hmt] at h
      · rw [mapOpt] at h
        simp only [hg, hmt, Option.map_some'] at h
        cases h
        have hkeys : db2.map Prod.fst = rest := mapOpt_sections_keys g rest db2 hmt
        by_cases hsn : s = n
        · subst hsn
          refine ⟨objn, hg, ?_⟩
          by_cases hobj : objn.isEmpty
          · rw [if_pos hobj]
            rw [show filterNull ((s, objn) :: db2)
                = List.filter (fun sec => !sec.2.isEmpty) ((s, objn) :: db2)
              from rfl]
            rw [List.filter_cons_of_neg (by simp [hobj])]
            by_cases hsrest : s ∈ rest
            · obtain ⟨obj2, hobj2, hfind2⟩ := ih db2 hmt hsrest
              rw [hg] at hobj2
              cases hobj2
              rw [show List.filter (fun sec => !sec.2.isEmpty) db2
                  = filterNull db2 from rfl]
              rw [hfind2, if_pos hobj]
            · apply List.find?_eq_none.mpr
              intro x hx
              have hxk : x.1 ∈ db2.map Prod.fst :=
                List.mem_map_of_mem _ (List.mem_of_mem_filter hx)
              rw [hkeys] at hxk
              simp only [Bool.not_eq_true, beq_eq_false_iff_ne, ne_eq]
              intro hxe
              rw [hxe] at hxk
              exact hsrest hxk
          · rw [if_neg hobj]
            rw [show filterNull ((s, objn) :: db2)
                = List.filter (fun sec => !sec.2.isEmpty) ((s, objn) :: db2)
              from rfl]
            rw [List.filter_cons_of_pos (by simp [hobj])]
            exact find?_cons_true _ (s, objn) _ (by simp)
        · have hsrest : s ∈ rest := by
            rcases List.mem_cons.mp hs with h1 | h1
            · exact absurd h1 hsn
            · exact h1
          obtain ⟨obj2, hobj2, hfind2⟩ := ih db2 hmt hsrest
          refine ⟨obj2, hobj2, ?_⟩
          rw [show filterNull ((n, objn) :: db2)
              = List.filter (fun sec => !sec.2.isEmpty) ((n, objn) :: db2)
            from rfl]
          by_cases hobjn : objn.isEmpty
          · rw [List.filter_cons_of_neg (by simp [hobjn])]
            exact hfind2
          · rw [List.filter_cons_of_pos (by simp [hobjn])]
            rw [find?_cons_false _ (n, objn) _
              (by simp [beq_eq_false_iff_ne]; exact Ne.symm hsn)]
            exact hfind2

/-! ## The typed view: master lemmas -/

theorem convertProxy_section (st : IniState)
    (d : List (String × List (String × CValue)))
    (hc : convertProxy st = some d) (s : String) (hs : s ∈ sectionList st) :
    ∃ obj,
      mapOpt (fun p => (getBoolean st s p.1).map (fun cv => (p.1, cv)))
          ((filterDefault st s).filter (fun p => !(p.2 == NONE))) = some obj ∧
      typedLookup d s = (if obj.isEmpty then none else some obj) := by
  rw [convertProxy] at hc
  rcases hcb : convertBooleans st (convertNull (rawDict st)) with _ | db
  · rw [hcb] at hc; cases hc
  · rw [hcb] at hc
    simp only [Option.map_some'] at hc
    have hshape : convertBooleans st (convertNull (rawDict st))
        = mapOpt (fun s2 =>
            (mapOpt (fun p => (getBoolean st s2 p.1).map (fun cv => (p.1, cv)))
                ((filterDefault st s2).filter (fun p => !(p.2 == NONE)))).map
              (fun l => (s2, l)))
          (sectionList st) := by
      rw [convertBooleans, convertNull, rawDict, List.map_map, mapOpt_map_comp]
      rfl
    rw [hshape] at hcb
    obtain ⟨obj, hobj, hfind⟩ := mapOpt_sections_find _ (sectionList st) db hcb s hs
    refine ⟨obj, hobj, ?_⟩
    have hd : d = filterNull db := by
      injection hc with hc2
      exact hc2.symm
    subst hd
    rw [typedLookup, hfind]
    by_cases he : obj.isEmpty
    · rw [if_pos he, if_pos he]; rfl
    · rw [if_neg he, if_neg he]; rfl

theorem parserGet_of_filterDefault (st : IniState) (s k v : String)
    (hk : pyLower k = k)
    (hv : lookupOpt (filterDefault st s) k = some v) :
    parserGet st s k = some v := by
  rcases hsd : (s == DEFAULT) with _ | _
  · rw [filterDefault, hsd, if_neg (by simp)] at hv
    rcases hgs : getSection st s with _ | own
    · rw [sectionItems, hsd, if_neg (by simp), hgs] at hv
      simp [lookupOpt] at hv
    · rw [sectionItems, hsd, if_neg (by simp), hgs] at hv
      rw [lookupOpt] at hv
      rcases hf : ((own ++ st.defaults.filter (fun p => !keyMem own p.1)).filter
          (fun p => !keyMem st.defaults p.1)).find? (fun p => p.1 == k)
        with _ | pr
      · rw [hf] at hv; cases hv
      · rw [hf] at hv
        simp only [Option.map_some', Option.some.injEq] at hv
        have hprk : pr.1 = k :=
          find?_key_eq _ k pr hf
        have hprmem := List.mem_of_find?_eq_some hf
        have hprQ : (!keyMem st.defaults pr.1) = true :=
          (List.mem_filter.mp hprmem).2
        have hkdef : keyMem st.defaults k = false := by
          rw [hprk] at hprQ
          simpa using hprQ
        have hQ : ∀ p ∈ own ++ st.defaults.filter (fun p => !keyMem own p.1),
            (p.1 == k) = true → (!keyMem st.defaults p.1) = true := by
          intro p _ hpk
          have : p.1 = k := by simpa using hpk
          rw [this, hkdef]
          rfl
        have hall := find?_filter_key_all
          (own ++ st.defaults.filter (fun p => !keyMem own p.1)) k _ hQ
        rw [hf] at hall
        have happ0 : (own
              ++ st.defaults.filter (fun p => !keyMem own p.1)).find?
                (fun p => p.1 == k)
            = ((own.find? (fun p => p.1 == k)).or
              ((st.defaults.filter (fun p => !keyMem own p.1)).find?
                (fun p => p.1 == k))) := List.find?_append
        have happ := happ0.symm.trans hall.symm
        have hdefnone : (st.defaults.filter (fun p => !keyMem own p.1)).find?
            (fun p => p.1 == k) = none := by
          apply List.find?_eq_none.mpr
          intro x hx
          have hxd : x ∈ st.defaults := List.mem_of_mem_filter hx
          simp only [Bool.not_eq_true, beq_eq_false_iff_ne, ne_eq]
          intro hxe
          have : keyMem st.defaults k = true :=
            List.any_eq_true.mpr ⟨x, hxd, by simp [hxe]⟩
          rw [this] at hkdef
          cases hkdef
        rw [hdefnone] at happ
        rcases hfo : own.find? (fun p => p.1 == k) with _ | pr2
        · rw [hfo] at happ
          cases happ
        · rw [hfo] at happ
          simp only [Option.or_some, Option.some.injEq] at happ
          have hlook : lookupOpt own (pyLower k) = some v := by
            rw [hk]
            rw [show lookupOpt own k = (own.find? (fun p => p.1 == k)).map
              (fun p => p.2) from rfl]
            rw [hfo]
            simp [happ, hv]
          simp [parserGet, hsd, hgs, hlook]
  · rw [filterDefault, hsd, if_pos rfl] at hv
    rw [parserGet, hsd, if_pos rfl, hk]
    exact hv

theorem getKeyD_eq_getBoolean (st : IniState)
    (d : List (String × List (String × CValue))) (s k v : String)
    (hc : convertProxy st = some d) (hs : s ∈ sectionList st)
    (hv : lookupOpt (filterDefault st s) k = some v)
    (hvne : (v == NONE) = false) :
    getKeyD d s k = getBoolean st s k := by
  obtain ⟨obj, hobj, htl⟩ := convertProxy_section st d hc s hs
  rw [lookupOpt] at hv
  rcases hf : (filterDefault st s).find? (fun p => p.1 == k) with _ | pr
  · rw [hf] at hv; cases hv
  · rw [hf] at hv
    simp only [Option.map_some', Option.some.injEq] at hv
    have hprk : pr.1 = k := find?_key_eq _ k pr hf
    have hkeep := find?_filter_keep (filterDefault st s)
      (fun p => p.1 == k) (fun p => !(p.2 == NONE)) pr hf (by simp [hv, hvne])
    have hfo := mapOpt_keyed (getBoolean st s) _ obj hobj k
    rw [hkeep, Option.some_bind] at hfo
    rw [hprk] at hfo
    rcases hgb : getBoolean st s k with _ | cv
    · rw [hgb] at hfo
      simp only [Option.map_none'] at hfo
      rw [getKeyD, htl]
      by_cases he : obj.isEmpty
      · rw [if_pos he]; rfl
      · rw [if_neg he]
        simp [hfo]
    · rw [hgb] at hfo
      simp only [Option.map_some'] at hfo
      have hmem := List.mem_of_find?_eq_some hfo
      have hne : obj.isEmpty = false := by
        rw [List.isEmpty_eq_false]
        exact List.ne_nil_of_mem hmem
      rw [getKeyD, htl, if_neg (by simp [hne])]
      simp [hfo, hprk]

theorem getKeyD_null_none (st : IniState)
    (d : List (String × List (String × CValue))) (s k : String)
    (hc : convertProxy st = some d) (hs : s ∈ sectionList st)
    (hv : lookupOpt (filterDefault st s) k = some NONE)
    (hnd : ((filterDefault st s).map Prod.fst).Nodup) :
    getKeyD d s k = none := by
  obtain ⟨obj, hobj, htl⟩ := convertProxy_section st d hc s hs
  rw [lookupOpt] at hv
  rcases hf : (filterDefault st s).find? (fun p => p.1 == k) with _ | pr
  · rw [hf] at hv; cases hv
  · rw [hf] at hv
    simp only [Option.map_some', Option.some.injEq] at hv
    have hdrop := find?_filter_drop_nodup (filterDefault st s) k
      (fun p => !(p.2 == NONE)) pr hnd hf (by simp [hv])
    have hfo := mapOpt_keyed (getBoolean st s) _ obj hobj k
    rw [hdrop, Option.none_bind] at hfo
    rw [getKeyD, htl]
    by_cases he : obj.isEmpty
    · rw [if_pos he]; rfl
    · rw [if_neg he]
      simp [hfo]

/-! ## Claim C9 -/

/-- Claim C9 (confirmed): when the default-section repository key holds the
null-marker, `get_key("DEFAULT", "repopath")` is absent and the repository
check signals the missing-repository-location condition rather than yielding
a locator; the exit itself is performed by the boundary component
(`parser.Catch`), not by the translation pipeline. -/
theorem null_repopath_signals_condition (st : IniState)
    (d : List (String × List (String × CValue)))
    (hc : convertProxy st = some d)
    (hv : lookupOpt st.defaults "repopath" = some NONE)
    (hnd : (st.defaults.map Prod.fst).Nodup) :
    getKeyD d DEFAULT "repopath" = none ∧
    checkRepopathConfig (getKeyD d DEFAULT "repopath") =
      Except.error Condition.missingRepositoryLocation := by
  have hfd : filterDefault st DEFAULT = st.defaults := by
    rw [filterDefault]; simp
  have hs : DEFAULT ∈ sectionList st := by
    rw [sectionList]; simp
  have h1 := getKeyD_null_none st d DEFAULT "repopath" hc hs
    (by rw [hfd]; exact hv) (by rw [hfd]; exact hnd)
  exact ⟨h1, by rw [h1]; rfl⟩

/-- Witness for `null_repopath_signals_condition`: the schema defaults
themselves carry `repopath = None`. -/
theorem null_repopath_signals_condition_witness :
    (convertProxy (loadDefaultValues "host" "user")).map
      (fun d => checkRepopathConfig (getKeyD d DEFAULT "repopath")) =
      some (Except.error Condition.missingRepositoryLocation) := by
  rcases hceq : convertProxy (loadDefaultValues "host" "user") with _ | d
  · exact absurd hceq (by decide)
  · have h := null_repopath_signals_condition (loadDefaultValues "host" "user")
      d hceq (by decide) (by decide)
    simp only [Option.map_some', h.2]

/-! ## Claim C3 -/

/-- Claim C3, counterexample: the case-insensitive `true`/`false` literals
are not the only boolean encodings — `configparser` also converts
`1/yes/on` and `0/no/off`, so a key with value `"yes"` becomes boolean
`true` instead of staying the string `"yes"`. -/
theorem yes_literal_boolean_converted :
    (convertProxy ⟨[], [("BACKUP", [("foo", "yes")])]⟩).map
        (fun d => getKeyD d "BACKUP" "foo") = some (some (CValue.bool true)) ∧
    booleanStates "yes" = some true ∧ booleanStates "on" = some true ∧
    booleanStates "0" = some false := by
  exact ⟨rfl, rfl, rfl, rfl⟩

/-- Claim C3 (amended): in the typed view, a key whose raw value is exactly
`"None"` is absent; for keys without the retention prefix the value is fed
to `getboolean`, whose accepted encodings are exactly the lowercased
`BOOLEAN_STATES` literals `1/yes/true/on` (true) and `0/no/off/false`
(false); any value outside that set is kept as its original string, never an
error. -/
theorem typed_view_null_and_boolean_conversion (st : IniState)
    (d : List (String × List (String × CValue))) (s k v : String)
    (hc : convertProxy st = some d) (hs : s ∈ sectionList st)
    (hv : lookupOpt (filterDefault st s) k = some v)
    (hnd : ((filterDefault st s).map Prod.fst).Nodup)
    (hk : pyLower k = k) (hkeep : beginsWith k "keep-" = false) :
    (v = NONE → getKeyD d s k = none)
    ∧ (∀ b, booleanStates (pyLower v) = some b →
        getKeyD d s k = some (CValue.bool b))
    ∧ (booleanStates (pyLower v) = none → v ≠ NONE →
        getKeyD d s k = some (CValue.str v)) := by
  refine ⟨?_, ?_, ?_⟩
  · intro hvn
    rw [hvn] at hv
    exact getKeyD_null_none st d s k hc hs hv hnd
  · intro b hb
    have hne : v ≠ NONE := by
      intro he
      rw [he] at hb
      rw [show booleanStates (pyLower NONE) = none from rfl] at hb
      cases hb
    have hvne : (v == NONE) = false := beq_eq_false_iff_ne.mpr hne
    rw [getKeyD_eq_getBoolean st d s k v hc hs hv hvne]
    simp [getBoolean, hkeep, parserGet_of_filterDefault st s k v hk hv, hb]
  · intro hb hne
    have hvne : (v == NONE) = false := beq_eq_false_iff_ne.mpr hne
    rw [getKeyD_eq_getBoolean st d s k v hc hs hv hvne]
    simp [getBoolean, hkeep, parserGet_of_filterDefault st s k v hk hv, hb, hv]

/-- Witness for `typed_view_null_and_boolean_conversion`: the schema
BACKUP `filter = AME` value stays a string through the full pipeline. -/
theorem typed_view_null_and_boolean_conversion_witness :
    (convertProxy (loadDefaultValues "host" "user")).map
      (fun d => getKeyD d "BACKUP" "filter") =
      some (some (CValue.str "AME")) := by
  rcases hceq : convertProxy (loadDefaultValues "host" "user") with _ | d
  · exact absurd hceq (by decide)
  · have h := (typed_view_null_and_boolean_conversion
      (loadDefaultValues "host" "user") d "BACKUP" "filter" "AME" hceq
      (by decide) (by decide) (by decide) (by decide) (by decide)).2.2
      (by decide) (by decide)
    simp only [Option.map_some', h]

/-! ## Claim C4 -/

/-- Claim C4 (confirmed): a key starting with the retention marker `keep-`
is never boolean-converted — `_get_boolean` raises `ValueError` before any
parse is attempted and the raw string is passed through, whatever it looks
like. -/
theorem keep_retention_keys_never_boolean_converted (st : IniState)
    (d : List (String × List (String × CValue))) (s k v : String)
    (hc : convertProxy st = some d) (hs : s ∈ sectionList st)
    (hv : lookupOpt (filterDefault st s) k = some v) (hne : v ≠ NONE)
    (hkeep : beginsWith k "keep-" = true) :
    getKeyD d s k = some (CValue.str v) := by
  have hvne : (v == NONE) = false := beq_eq_false_iff_ne.mpr hne
  rw [getKeyD_eq_getBoolean st d s k v hc hs hv hvne]
  simp [getBoolean, hkeep, hv]

/-- Witness for `keep_retention_keys_never_boolean_converted`: the schema
`keep-daily = 7` passes through as the string `"7"`; a boolean-looking
`keep-` value would also stay a string. -/
theorem keep_retention_keys_never_boolean_converted_witness :
    (convertProxy (loadDefaultValues "host" "user")).map
      (fun d => getKeyD d "PRUNE" "keep-daily") =
      some (some (CValue.str "7")) := by
  rcases hceq : convertProxy (loadDefaultValues "host" "user") with _ | d
  · exact absurd hceq (by decide)
  · have h := keep_retention_keys_never_boolean_converted
      (loadDefaultValues "host" "user") d "PRUNE" "keep-daily" "7" hceq
      (by decide) (by decide) (by decide) (by decide)
    simp only [Option.map_some', h]

/-! ## Claim C5 -/

/-- Claim C5 (confirmed): `return_all` renders one `--key` token per
boolean-true key and nothing for boolean-false keys, then one `--key value`
token per string key, boolean flags first, each group in stored key order;
the BACKUP example `verbose=True, stats=False, filter=AME, compression=lz4`
renders exactly `["--verbose", "--filter AME", "--compression lz4"]`. -/
theorem return_all_flag_order (d : List (String × List (String × CValue)))
    (s : String) (obj : List (String × CValue))
    (h : typedLookup d s = some obj) :
    returnAll d s = some (getFlags obj ++ getKeyvals obj)
    ∧ (∀ kk, (kk, CValue.bool false) ∈ obj → (obj.map Prod.fst).Nodup →
        ("--" ++ kk) ∉ getFlags obj)
    ∧ (convertProxy ⟨[], [("BACKUP",
        [("verbose", "True"), ("stats", "False"), ("filter", "AME"),
          ("compression", "lz4")])]⟩).map (fun d2 => returnAll d2 "BACKUP") =
      some (some ["--verbose", "--filter AME", "--compression lz4"]) := by
  refine ⟨?_, ?_, rfl⟩
  · rw [returnAll, h]
    rfl
  · intro kk hmem hnd hin
    rw [getFlags] at hin
    obtain ⟨p, hp, hpe⟩ := List.mem_filterMap.mp hin
    rcases p with ⟨pk, pv⟩
    rcases pv with b | v
    · rcases b with _ | _
      · cases hpe
      · simp only [Option.some.injEq] at hpe
        have hks : pk = kk := by
          apply string_ext
          have := congrArg String.data hpe
          rw [string_data_append, string_data_append] at this
          exact List.append_cancel_left this
        subst hks
        have := List.inj_on_of_nodup_map hnd hp hmem rfl
        cases this
    · cases hpe

/-- Witness for `return_all_flag_order`. -/
theorem return_all_flag_order_witness :
    returnAll [("B", [("x", CValue.bool true), ("y", CValue.str "v")])] "B" =
      some ["--x", "--y v"] :=
  ((return_all_flag_order
    [("B", [("x", CValue.bool true), ("y", CValue.str "v")])] "B"
    [("x", CValue.bool true), ("y", CValue.str "v")] (by rfl)).1).trans (by rfl)

/-! ## Claims C1 and C2: counterexamples -/

set_option maxRecDepth 10000 in
/-- Claim C1, counterexample: a file whose BACKUP section carries an `ssh`
key (a default-section key name) changes again on the second repair pass —
the first pass copies `ssh` into BACKUP and replicates the inherited `ssh`
under `[DEFAULT]`, and the second pass then drops the BACKUP copy, so the
file produced by one repair pass is not byte-for-byte stable. -/
theorem read_write_not_idempotent_after_first_pass :
    (readCycle "host" "user" "[BACKUP]\nssh = yes\n").bind
        (readCycle "host" "user") ≠
      readCycle "host" "user" "[BACKUP]\nssh = yes\n" := by decide

set_option maxRecDepth 10000 in
/-- Claim C2, counterexample: an unknown key inside a known section is not
dropped by the repair cycle — `foo = bar` under `[BACKUP]` survives the
read+write cycle (it is copied into the defaults-seeded parser and written
back). -/
theorem unknown_key_survives_cycle :
    ((readCycle "host" "user" "[BACKUP]\nfoo = bar\n").bind parseIni).map
        (fun r2 => lookupOpt (ownOf r2 "BACKUP") "foo") =
      some (some "bar") := by decide

/-! ## Dict-assignment fold lemmas -/

theorem keyMem_false_iff (l : List (String × String)) (k : String) :
    keyMem l k = false ↔ ∀ p ∈ l, p.1 ≠ k := by
  simp [keyMem, List.any_eq_false]

theorem keyMem_true_of_mem (l : List (String × String)) (p : String × String)
    (hp : p ∈ l) : keyMem l p.1 = true :=
  List.any_eq_true.mpr ⟨p, hp, by simp⟩

theorem find?_eq_none_of_keyMem_false (l : List (String × String))
    (k : String) (h : keyMem l k = false) :
    l.find? (fun p => p.1 == k) = none := by
  apply List.find?_eq_none.mpr
  intro x hx
  have := (keyMem_false_iff l k).mp h x hx
  simpa using this

theorem lookupOpt_eq_none_of_keyMem_false (l : List (String × String))
    (k : String) (h : keyMem l k = false) : lookupOpt l k = none := by
  rw [lookupOpt, find?_eq_none_of_keyMem_false l k h]
  rfl

theorem keyMem_append (l1 l2 : List (String × String)) (k : String) :
    keyMem (l1 ++ l2) k = (keyMem l1 k || keyMem l2 k) := by
  simp [keyMem, List.any_append]

theorem keyMem_iff (l : List (String × String)) (x : String) :
    keyMem l x = true ↔ x ∈ l.map Prod.fst := by
  constructor
  · intro h
    obtain ⟨p, hp, he⟩ := List.any_eq_true.mp h
    exact List.mem_map.mpr ⟨p, hp, by simpa using he⟩
  · intro h
    obtain ⟨p, hp, he⟩ := List.mem_map.mp h
    exact List.any_eq_true.mpr ⟨p, hp, by simp [he]⟩

theorem keyMem_eq_decide (l : List (String × String)) (x : String) :
    keyMem l x = decide (x ∈ l.map Prod.fst) := by
  by_cases h : x ∈ l.map Prod.fst
  · rw [decide_eq_true h]
    exact (keyMem_iff l x).mpr h
  · rw [decide_eq_false h]
    rcases hk : keyMem l x with _ | _
    · rfl
    · exact absurd ((keyMem_iff l x).mp hk) h

theorem keys_setOpt_of_keyMem (l : List (String × String)) (k v : String)
    (hm : keyMem l k = true) :
    (setOpt l k v).map Prod.fst = l.map Prod.fst := by
  rw [setOpt, if_pos hm, List.map_map]
  apply List.map_congr_left
  intro p _
  show (if p.1 == k then ((k, v) : String × String) else p).1 = p.1
  by_cases hpk : (p.1 == k)
  · rw [if_pos hpk]
    have : p.1 = k := by simpa using hpk
    simp [this]
  · rw [if_neg (by simpa using hpk)]

theorem keys_setOpt_of_not_keyMem (l : List (String × String)) (k v : String)
    (hm : keyMem l k = false) :
    (setOpt l k v).map Prod.fst = l.map Prod.fst ++ [k] := by
  rw [setOpt, if_neg (by simp [hm]), List.map_append]
  rfl

theorem keyMem_setOpt (l : List (String × String)) (k v x : String) :
    keyMem (setOpt l k v) x = (keyMem l x || (x == k)) := by
  rw [keyMem_eq_decide, keyMem_eq_decide]
  by_cases hm : keyMem l k
  · rw [keys_setOpt_of_keyMem l k v hm]
    by_cases hxk : x = k
    · subst hxk
      rw [decide_eq_true ((keyMem_iff l x).mp hm)]
      simp
    · rw [beq_eq_false_iff_ne.mpr hxk]
      simp
  · rw [keys_setOpt_of_not_keyMem l k v (by simpa using hm)]
    by_cases hxm : x ∈ l.map Prod.fst
    · rw [decide_eq_true hxm, decide_eq_true (List.mem_append.mpr (Or.inl hxm))]
      simp
    · rw [decide_eq_false hxm]
      by_cases hxk : x = k
      · subst hxk
        rw [decide_eq_true (List.mem_append.mpr (Or.inr (by simp)))]
        simp
      · have hno : x ∉ l.map Prod.fst ++ [k] := by
          intro hmem
          rcases List.mem_append.mp hmem with h1 | h1
          · exact hxm h1
          · simp only [List.mem_singleton] at h1
            exact hxk h1
        rw [decide_eq_false hno, beq_eq_false_iff_ne.mpr hxk]
        rfl

theorem nodup_setOpt (l : List (String × String)) (k v : String)
    (hnd : (l.map Prod.fst).Nodup) :
    ((setOpt l k v).map Prod.fst).Nodup := by
  by_cases hm : keyMem l k
  · rw [keys_setOpt_of_keyMem l k v hm]
    exact hnd
  · rw [keys_setOpt_of_not_keyMem l k v (by simpa using hm)]
    rw [List.nodup_append]
    refine ⟨hnd, List.nodup_singleton k, ?_⟩
    intro x hx
    simp only [List.mem_singleton]
    intro hxk
    subst hxk
    obtain ⟨p, hp, hpk⟩ := List.mem_map.mp hx
    have := keyMem_true_of_mem l p hp
    rw [hpk] at this
    rw [this] at hm
    exact hm rfl

theorem mem_setOpt (l : List (String × String)) (k v : String)
    (p : String × String) (hp : p ∈ setOpt l k v) : p ∈ l ∨ p = (k, v) := by
  rw [setOpt] at hp
  by_cases hm : keyMem l k
  · rw [if_pos hm] at hp
    obtain ⟨q, hq, hqe⟩ := List.mem_map.mp hp
    by_cases hqk : (q.1 == k)
    · rw [if_pos hqk] at hqe
      exact Or.inr hqe.symm
    · rw [if_neg (by simpa using hqk)] at hqe
      exact Or.inl (hqe ▸ hq)
  · rw [if_neg hm] at hp
    rcases List.mem_append.mp hp with h1 | h1
    · exact Or.inl h1
    · simp only [List.mem_singleton] at h1
      exact Or.inr h1

theorem gFold_nil (base : List (String × String)) : gFold base [] = base := rfl

theorem gFold_cons (base : List (String × String)) (a : String × String)
    (t : List (String × String)) :
    gFold base (a :: t) = gFold (setOpt base a.1 a.2) t := rfl

theorem gFold_nodup (base items : List (String × String))
    (hnd : (base.map Prod.fst).Nodup) :
    ((gFold base items).map Prod.fst).Nodup := by
  induction items generalizing base with
  | nil => exact hnd
  | cons a t ih =>
    rw [gFold_cons]
    exact ih _ (nodup_setOpt base a.1 a.2 hnd)

theorem gFold_mem (base items : List (String × String)) (p : String × String)
    (hp : p ∈ gFold base items) : p ∈ base ∨ p ∈ items := by
  induction items generalizing base with
  | nil => exact Or.inl hp
  | cons a t ih =>
    rw [gFold_cons] at hp
    rcases ih _ hp with h1 | h1
    · rcases mem_setOpt base a.1 a.2 p h1 with h2 | h2
      · exact Or.inl h2
      · right
        rw [h2]
        exact List.mem_cons_self a t
    · exact Or.inr (List.mem_cons_of_mem a h1)

theorem find?_self_of_nodup (l : List (String × String))
    (hnd : (l.map Prod.fst).Nodup) (p : String × String) (hp : p ∈ l) :
    l.find? (fun q => q.1 == p.1) = some p := by
  induction l with
  | nil => cases hp
  | cons a t ih =>
    obtain ⟨hnd1, hnd2⟩ := nodup_fst_cons a t hnd
    rcases List.mem_cons.mp hp with h1 | h1
    · rw [h1]
      exact find?_cons_true (fun q => q.1 == a.1) a t (by simp)
    · have hne : (a.1 == p.1) = false := by
        apply beq_eq_false_iff_ne.mpr
        intro he
        rw [he] at hnd1
        exact hnd1 (List.mem_map_of_mem _ h1)
      rw [find?_cons_false _ a t hne]
      exact ih hnd2 h1

theorem gFold_eq (base items : List (String × String))
    (hnd : (items.map Prod.fst).Nodup) :
    gFold base items =
      updWith items base ++ items.filter (fun kv => !keyMem base kv.1) := by
  induction items generalizing base with
  | nil => simp [gFold, updWith]
  | cons a t ih =>
    obtain ⟨hnd1, hnd2⟩ := nodup_fst_cons a t hnd
    rw [gFold_cons, ih (setOpt base a.1 a.2) hnd2]
    have htfind : t.find? (fun q => q.1 == a.1) = none := by
      apply List.find?_eq_none.mpr
      intro x hx
      simp only [Bool.not_eq_true, beq_eq_false_iff_ne, ne_eq]
      intro he
      rw [← he] at hnd1
      exact hnd1 (List.mem_map_of_mem _ hx)
    by_cases hm : keyMem base a.1
    · have hfilter : t.filter (fun kv => !keyMem (setOpt base a.1 a.2) kv.1)
          = t.filter (fun kv => !keyMem base kv.1) := by
        apply List.filter_congr
        intro kv hkv
        beta_reduce
        rw [keyMem_setOpt]
        have : (kv.1 == a.1) = false := by
          apply beq_eq_false_iff_ne.mpr
          intro he
          rw [← he] at hnd1
          exact hnd1 (List.mem_map_of_mem _ hkv)
        rw [this, Bool.or_false]
      have hupd : updWith t (setOpt base a.1 a.2) = updWith (a :: t) base := by
        rw [updWith, updWith, setOpt, if_pos hm, List.map_map]
        apply List.map_congr_left
        intro p _
        simp only [Function.comp_apply]
        by_cases hpk : (p.1 == a.1)
        · have hpe : p.1 = a.1 := by simpa using hpk
          rw [if_pos hpk]
          rw [htfind, find?_cons_true (fun q => q.1 == p.1) a t (by simp [hpe])]
          simp [hpe]
        · have hne2 : (a.1 == p.1) = false := by
            apply beq_eq_false_iff_ne.mpr
            intro he
            exact (by simpa using hpk : ¬p.1 = a.1) he.symm
          rw [if_neg hpk]
          rw [find?_cons_false (fun q => q.1 == p.1) a t (by simpa using hne2)]
      rw [hfilter, hupd]
      have : (a :: t).filter (fun kv => !keyMem base kv.1)
          = t.filter (fun kv => !keyMem base kv.1) := by
        rw [List.filter_cons_of_neg (by simp [hm])]
      rw [this]
    · have hmf : keyMem base a.1 = false := by simpa using hm
      have hset : setOpt base a.1 a.2 = base ++ [(a.1, a.2)] := by
        rw [setOpt, if_neg (by simp [hmf])]
      rw [hset]
      have hfilter : t.filter (fun kv => !keyMem (base ++ [(a.1, a.2)]) kv.1)
          = t.filter (fun kv => !keyMem base kv.1) := by
        apply List.filter_congr
        intro kv hkv
        beta_reduce
        rw [keyMem_append]
        have : keyMem [(a.1, a.2)] kv.1 = false := by
          apply (keyMem_false_iff _ _).mpr
          intro p hp
          simp only [List.mem_singleton] at hp
          subst hp
          intro he
          have he2 : a.1 = kv.1 := he
          rw [he2] at hnd1
          exact hnd1 (List.mem_map_of_mem _ hkv)
        rw [this, Bool.or_false]
      have hupd : updWith t (base ++ [(a.1, a.2)])
          = updWith t base ++ [(a.1, a.2)] := by
        rw [updWith, List.map_append]
        apply congrArg
        rw [List.map_singleton]
        rw [htfind]
        rfl
      have hupd2 : updWith (a :: t) base = updWith t base := by
        rw [updWith, updWith]
        apply List.map_congr_left
        intro p hp
        beta_reduce
        have hne3 : (a.1 == p.1) = false := by
          apply beq_eq_false_iff_ne.mpr
          intro he
          have := keyMem_true_of_mem base p hp
          rw [← he] at this
          rw [this] at hmf
          cases hmf
        rw [find?_cons_false (fun q => q.1 == p.1) a t (by simpa using hne3)]
      rw [hfilter, hupd, hupd2]
      have : (a :: t).filter (fun kv => !keyMem base kv.1)
          = a :: t.filter (fun kv => !keyMem base kv.1) := by
        rw [List.filter_cons_of_pos (by simp [hmf])]
      rw [this]
      have heta : ((a.1, a.2) : String × String) = a := rfl
      rw [heta]
      simp [List.append_assoc]

theorem find?_updWith (items base : List (String × String)) (k : String) :
    (updWith items base).find? (fun p => p.1 == k) =
      (base.find? (fun p => p.1 == k)).map
        (fun p =>
          (p.1, (((items.find? (fun q => q.1 == p.1)).map
            (fun q => q.2)).getD p.2))) := by
  rw [updWith, List.find?_map]
  have : ((fun p : String × String => p.1 == k) ∘
      (fun p : String × String =>
        (p.1, (((items.find? (fun q => q.1 == p.1)).map
          (fun q => q.2)).getD p.2)))) =
      (fun p : String × String => p.1 == k) := by
    funext x
    rfl
  rw [this]

theorem lookupOpt_gFold (base items : List (String × String)) (k : String)
    (hnd : (items.map Prod.fst).Nodup) :
    lookupOpt (gFold base items) k =
      (lookupOpt items k).or (lookupOpt base k) := by
  rw [gFold_eq base items hnd, lookupOpt, List.find?_append, find?_updWith]
  rcases hb : base.find? (fun p => p.1 == k) with _ | pb
  · rw [hb]
    simp only [Option.map_none', Option.none_or]
    have hbase : lookupOpt base k = none := by
      rw [lookupOpt, hb]
      rfl
    rw [hbase, Option.or_none]
    have hkm : keyMem base k = false := by
      rcases hkm2 : keyMem base k with _ | _
      · rfl
      · obtain ⟨p, hp, hpk⟩ := List.any_eq_true.mp hkm2
        have := List.find?_eq_none.mp hb p hp
        exact absurd hpk this
    rcases hi : items.find? (fun q => q.1 == k) with _ | pr
    · have hex : (items.filter (fun kv => !keyMem base kv.1)).find?
          (fun p => p.1 == k) = none := by
        apply List.find?_eq_none.mpr
        intro x hx
        exact List.find?_eq_none.mp hi x (List.mem_of_mem_filter hx)
      rw [hex, lookupOpt, hi]
    · have hQ : ∀ p ∈ items, (p.1 == k) = true →
          (fun kv : String × String => !keyMem base kv.1) p = true := by
        intro p _ hpk
        have : p.1 = k := by simpa using hpk
        beta_reduce
        rw [this, hkm]
        rfl
      rw [find?_filter_key_all items k _ hQ, hi, lookupOpt, hi]
  · rw [hb]
    simp only [Option.map_some', Option.or]
    have hpk : pb.1 = k := find?_key_eq _ k pb hb
    rw [hpk]
    rcases hi : items.find? (fun q => q.1 == k) with _ | pr
    · rw [lookupOpt, hi, lookupOpt, hb]
      rfl
    · rw [lookupOpt, hi, lookupOpt, hb]
      rfl

theorem gFold_filter_idem (base : List (String × String)) (P : String → Bool)
    (r : List (String × String)) (hndb : (base.map Prod.fst).Nodup)
    (hndr : (r.map Prod.fst).Nodup) :
    gFold base
        ((gFold base (r.filter (fun kv => P kv.1))).filter
          (fun kv => P kv.1)) =
      gFold base (r.filter (fun kv => P kv.1)) := by
  have hndF : ((r.filter (fun kv => P kv.1)).map Prod.fst).Nodup :=
    List.Nodup.sublist ((r.filter_sublist).map Prod.fst) hndr
  have hD := gFold_eq base (r.filter (fun kv => P kv.1)) hndF
  have hndrr : ((gFold base (r.filter (fun kv => P kv.1))).map
      Prod.fst).Nodup := gFold_nodup base _ hndb
  have hndrrF : (((gFold base (r.filter (fun kv => P kv.1))).filter
      (fun kv => P kv.1)).map Prod.fst).Nodup :=
    List.Nodup.sublist ((List.filter_sublist _).map Prod.fst) hndrr
  rw [gFold_eq base _ hndrrF]
  have hsplit : (gFold base (r.filter (fun kv => P kv.1))).filter
        (fun kv => P kv.1) =
      (updWith (r.filter (fun kv => P kv.1)) base).filter
          (fun kv => P kv.1) ++
        (r.filter (fun kv => P kv.1)).filter
          (fun kv => !keyMem base kv.1) := by
    rw [hD, List.filter_append]
    apply congrArg
    apply List.filter_eq_self.mpr
    intro x hx
    have hx2 := List.mem_of_mem_filter hx
    exact (List.mem_filter.mp hx2).2
  have hsecond : ((gFold base (r.filter (fun kv => P kv.1))).filter
        (fun kv => P kv.1)).filter (fun kv => !keyMem base kv.1) =
      (r.filter (fun kv => P kv.1)).filter (fun kv => !keyMem base kv.1) := by
    rw [hsplit, List.filter_append]
    have h1 : ((updWith (r.filter (fun kv => P kv.1)) base).filter
        (fun kv => P kv.1)).filter (fun kv => !keyMem base kv.1) = [] := by
      apply List.filter_eq_nil_iff.mpr
      intro x hx
      have hx2 : x ∈ updWith (r.filter (fun kv => P kv.1)) base :=
        List.mem_of_mem_filter hx
      obtain ⟨p, hp, hpe⟩ := List.mem_map.mp hx2
      have hx1 : x.1 = p.1 := by rw [← hpe]
      have hkm := keyMem_true_of_mem base p hp
      simp [hx1, hkm]
    have h2 : ((r.filter (fun kv => P kv.1)).filter
        (fun kv => !keyMem base kv.1)).filter
          (fun kv => !keyMem base kv.1) =
        (r.filter (fun kv => P kv.1)).filter (fun kv => !keyMem base kv.1) := by
      apply List.filter_eq_self.mpr
      intro x hx
      exact (List.mem_filter.mp hx).2
    rw [h1, h2, List.nil_append]
  have hfirst : updWith ((gFold base (r.filter (fun kv => P kv.1))).filter
        (fun kv => P kv.1)) base =
      updWith (r.filter (fun kv => P kv.1)) base := by
    rw [updWith, updWith]
    apply List.map_congr_left
    intro p hp
    beta_reduce
    by_cases hP : P p.1
    · have hQ : ∀ q ∈ gFold base (r.filter (fun kv => P kv.1)),
          (q.1 == p.1) = true →
          (fun kv : String × String => P kv.1) q = true := by
        intro q _ hq
        have : q.1 = p.1 := by simpa using hq
        beta_reduce
        rw [this]
        exact hP
      rw [find?_filter_key_all _ p.1 _ hQ]
      rw [hD, List.find?_append, find?_updWith,
        find?_self_of_nodup base hndb p hp]
      simp only [Option.map_some', Option.or, Option.getD_some]
    · have hfnone : ((gFold base (r.filter (fun kv => P kv.1))).filter
          (fun kv => P kv.1)).find? (fun q => q.1 == p.1) = none := by
        apply List.find?_eq_none.mpr
        intro x hx
        have hPx := (List.mem_filter.mp hx).2
        simp only [Bool.not_eq_true, beq_eq_false_iff_ne, ne_eq]
        intro he
        rw [he] at hPx
        rw [hPx] at hP
        exact hP rfl
      have hinone : (r.filter (fun kv => P kv.1)).find?
          (fun q => q.1 == p.1) = none := by
        apply List.find?_eq_none.mpr
        intro x hx
        have hPx := (List.mem_filter.mp hx).2
        simp only [Bool.not_eq_true, beq_eq_false_iff_ne, ne_eq]
        intro he
        rw [he] at hPx
        rw [hPx] at hP
        exact hP rfl
      rw [hfnone, hinone]
  rw [hfirst, hsecond, ← hD]

theorem gFold_replay (base items : List (String × String))
    (hndb : (base.map Prod.fst).Nodup) (hndi : (items.map Prod.fst).Nodup) :
    gFold base (gFold base items) = gFold base items := by
  have h := gFold_filter_idem base (fun _ => true) items hndb hndi
  simpa using h

/-! ## Characterizing one repair pass -/

theorem pyLower_eq_of_validKey (k : String) (h : ValidKey k) :
    pyLower k = k := by
  obtain ⟨-, -, -, hlow, -⟩ := h
  rw [pyLower, hlow]

theorem mapSections_id (st : IniState)
    (f : String × List (String × String) → String × List (String × String))
    (hf : ∀ p ∈ st.sections, f p = p) :
    { st with sections := st.sections.map f } = st := by
  have : st.sections.map f = st.sections := by
    rw [List.map_congr_left hf]
    exact List.map_id st.sections
  rw [this]

theorem readMerge_inner_default (rdr : IniState)
    (items : List (String × String))
    (hlow : ∀ p ∈ items, pyLower p.1 = p.1) :
    ∀ st : IniState,
      (items.foldl (fun a kv => readMergeStep rdr a DEFAULT kv) st)
        = { st with defaults := gFold st.defaults items } := by
  induction items with
  | nil =>
    intro st
    rfl
  | cons a t ih =>
    intro st
    have hla : pyLower a.1 = a.1 := hlow a (List.mem_cons_self a t)
    have hlt : ∀ p ∈ t, pyLower p.1 = p.1 := fun p hp =>
      hlow p (List.mem_cons_of_mem a hp)
    rw [List.foldl_cons]
    have hstep : readMergeStep rdr st DEFAULT a
        = { st with defaults := setOpt st.defaults a.1 a.2 } := by
      rw [readMergeStep, if_pos (by simp), parserSetItem, if_pos (by simp), hla]
    rw [hstep, ih hlt, gFold_cons]

theorem readMerge_inner_section (rdr : IniState) (n : String)
    (hne : (n == DEFAULT) = false) (items : List (String × String))
    (hlow : ∀ p ∈ items, pyLower p.1 = p.1) :
    ∀ st : IniState,
      (items.foldl (fun a kv => readMergeStep rdr a n kv) st)
        = { st with sections := (st.sections.map
            (fun p =>
              if p.1 = n then
                (p.1, gFold p.2
                  (items.filter (fun kv => !keyMem rdr.defaults kv.1)))
              else p)) } := by
  induction items with
  | nil =>
    intro st
    rw [List.foldl_nil]
    refine (mapSections_id st _ ?_).symm
    intro p _
    by_cases hpn : p.1 = n
    · rw [if_pos hpn, List.filter_nil, gFold_nil]
    · rw [if_neg hpn]
  | cons a t ih =>
    intro st
    have hla : pyLower a.1 = a.1 := hlow a (List.mem_cons_self a t)
    have hlt : ∀ p ∈ t, pyLower p.1 = p.1 := fun p hp =>
      hlow p (List.mem_cons_of_mem a hp)
    rw [List.foldl_cons]
    by_cases hm : keyMem rdr.defaults a.1
    · have hstep : readMergeStep rdr st n a = st := by
        simp [readMergeStep, bne, hne, hla, hm]
      have hfc : (a :: t).filter (fun kv => !keyMem rdr.defaults kv.1)
          = t.filter (fun kv => !keyMem rdr.defaults kv.1) := by
        simp [List.filter_cons, hm]
      rw [hstep, ih hlt, hfc]
    · have hmf : keyMem rdr.defaults a.1 = false := by
        simpa using hm
      have hfc : (a :: t).filter (fun kv => !keyMem rdr.defaults kv.1)
          = a :: t.filter (fun kv => !keyMem rdr.defaults kv.1) := by
        simp [List.filter_cons, hmf]
      by_cases hpres : st.sections.any (fun p => p.1 == n)
      · have hstep : readMergeStep rdr st n a
            = { st with sections := (st.sections.map
                (fun p =>
                  if p.1 == n then (p.1, setOpt p.2 a.1 a.2) else p)) } := by
          simp [readMergeStep, parserSetItem, bne, hne, hla, hmf, hpres]
        rw [hstep, ih hlt, hfc]
        dsimp only
        simp only [List.map_map]
        refine congrArg _ ?_
        apply List.map_congr_left
        intro p _
        simp only [Function.comp_apply]
        by_cases hpn : p.1 = n
        · simp [hpn, gFold_cons]
        · simp [hpn]
      · have hstep : readMergeStep rdr st n a = st := by
          simp [readMergeStep, parserSetItem, bne, hne, hla, hmf, hpres]
        rw [hstep, ih hlt, hfc]
        refine congrArg _ ?_
        apply List.map_congr_left
        intro p hp
        have hpn : ¬(p.1 = n) := by
          intro he
          exact hpres (List.any_eq_true.mpr ⟨p, hp, by simp [he]⟩)
        rw [if_neg hpn, if_neg hpn]

theorem sectionItems_filter_defaults (rdr : IniState) (n : String)
    (hne : (n == DEFAULT) = false) :
    (sectionItems rdr n).filter (fun kv => !keyMem rdr.defaults kv.1)
      = (ownOf rdr n).filter (fun kv => !keyMem rdr.defaults kv.1) := by
  rw [sectionItems, if_neg (by simp [hne] : ¬((n == DEFAULT) = true)), ownOf]
  rcases hg : getSection rdr n with _ | own
  · rfl
  · rw [List.filter_append]
    have hnil : (rdr.defaults.filter (fun p => !keyMem own p.1)).filter
        (fun kv => !keyMem rdr.defaults kv.1) = [] := by
      apply List.filter_eq_nil_iff.mpr
      intro x hx
      have hxm := keyMem_true_of_mem rdr.defaults x (List.mem_of_mem_filter hx)
      simp [hxm]
    rw [hnil, List.append_nil]
    rfl

theorem readMerge_outer (rdr : IniState) (names : List String)
    (hnd : names.Nodup) (hnames : ∀ n ∈ names, (n == DEFAULT) = false)
    (hlow : ∀ n ∈ names, ∀ p ∈ sectionItems rdr n, pyLower p.1 = p.1) :
    ∀ st : IniState,
      (names.foldl
          (fun acc s =>
            (sectionItems rdr s).foldl
              (fun a kv => readMergeStep rdr a s kv) acc)
          st)
        = { st with sections := (st.sections.map
            (fun p =>
              if p.1 ∈ names then
                (p.1, gFold p.2 ((sectionItems rdr p.1).filter
                  (fun kv => !keyMem rdr.defaults kv.1)))
              else p)) } := by
  induction names with
  | nil =>
    intro st
    rw [List.foldl_nil]
    refine (mapSections_id st _ ?_).symm
    intro p _
    rw [if_neg (List.not_mem_nil p.1)]
  | cons n rest ih =>
    intro st
    obtain ⟨hn1, hn2⟩ := List.nodup_cons.mp hnd
    have hnn : (n == DEFAULT) = false := hnames n (List.mem_cons_self n rest)
    have hrest : ∀ m ∈ rest, (m == DEFAULT) = false := fun m hm =>
      hnames m (List.mem_cons_of_mem n hm)
    have hlown : ∀ p ∈ sectionItems rdr n, pyLower p.1 = p.1 :=
      hlow n (List.mem_cons_self n rest)
    have hlowr : ∀ m ∈ rest, ∀ p ∈ sectionItems rdr m, pyLower p.1 = p.1 :=
      fun m hm => hlow m (List.mem_cons_of_mem n hm)
    rw [List.foldl_cons]
    rw [readMerge_inner_section rdr n hnn (sectionItems rdr n) hlown st]
    rw [ih hn2 hrest hlowr]
    dsimp only
    simp only [List.map_map]
    refine congrArg _ ?_
    apply List.map_congr_left
    intro p _
    simp only [Function.comp_apply]
    by_cases hpn : p.1 = n
    · simp [hpn, hn1]
    · simp [hpn]

theorem getSection_eq_none (R : IniState) (n : String)
    (h : n ∉ R.sections.map Prod.fst) : getSection R n = none := by
  rw [getSection]
  have hf : R.sections.find? (fun p => p.1 == n) = none := by
    apply List.find?_eq_none.mpr
    intro q hq he
    exact h (List.mem_map.mpr ⟨q, hq, by simpa using he⟩)
  rw [hf]
  rfl

theorem sectionItems_subset (R : IniState) (n : String) (p : String × String)
    (hp : p ∈ sectionItems R n) :
    p ∈ R.defaults ∨ ∃ sec ∈ R.sections, p ∈ sec.2 := by
  rw [sectionItems] at hp
  by_cases hd : (n == DEFAULT)
  · rw [if_pos hd] at hp
    exact Or.inl hp
  · rw [if_neg hd] at hp
    rcases hg : getSection R n with _ | own
    · rw [hg] at hp
      exact absurd hp (List.not_mem_nil p)
    · rw [hg] at hp
      rcases List.mem_append.mp hp with h1 | h2
      · right
        rw [getSection] at hg
        rcases hf : R.sections.find? (fun q => q.1 == n) with _ | sec
        · rw [hf] at hg
          simp at hg
        · rw [hf] at hg
          have hsec : sec.2 = own := by simpa using hg
          exact ⟨sec, List.mem_of_find?_eq_some hf, hsec ▸ h1⟩
      · exact Or.inl (List.mem_of_mem_filter h2)

theorem readMerge_eq (h u : String) (R : IniState) (hR : ValidReader R) :
    readMerge h u R =
      { defaults := gFold (loadDefaultValues h u).defaults R.defaults
        sections := (loadDefaultValues h u).sections.map
          (fun p =>
            (p.1, gFold p.2 ((ownOf R p.1).filter
              (fun kv => !keyMem R.defaults kv.1)))) } := by
  obtain ⟨hndn, hdnm, hdi, hsi⟩ := hR
  have hlowd : ∀ p ∈ R.defaults, pyLower p.1 = p.1 := fun p hp =>
    pyLower_eq_of_validKey p.1 ((hdi.2 p hp).1)
  have hnames : ∀ n ∈ R.sections.map Prod.fst, (n == DEFAULT) = false := by
    intro n hn
    rcases hq : (n == DEFAULT) with _ | _
    · rfl
    · have hnd2 : n = DEFAULT := by simpa using hq
      rw [hnd2] at hn
      exact absurd hn hdnm
  have hlows : ∀ n ∈ R.sections.map Prod.fst,
      ∀ p ∈ sectionItems R n, pyLower p.1 = p.1 := by
    intro n _ p hp
    rcases sectionItems_subset R n p hp with h1 | ⟨sec, hs1, hs2⟩
    · exact pyLower_eq_of_validKey p.1 ((hdi.2 p h1).1)
    · exact pyLower_eq_of_validKey p.1 (((hsi sec hs1).2 p hs2).1)
  rw [readMerge, List.foldl_cons]
  rw [show sectionItems R DEFAULT = R.defaults from by
    rw [sectionItems, if_pos (by simp : (DEFAULT == DEFAULT) = true)]]
  rw [readMerge_inner_default R R.defaults hlowd (loadDefaultValues h u)]
  rw [readMerge_outer R (R.sections.map (fun p => p.1)) hndn hnames hlows]
  dsimp only
  refine congrArg _ ?_
  apply List.map_congr_left
  intro p _
  by_cases hpm : p.1 ∈ R.sections.map (fun q => q.1)
  · rw [if_pos hpm, sectionItems_filter_defaults R p.1 (hnames p.1 hpm)]
  · rw [if_neg hpm]
    have hown : ownOf R p.1 = [] := by
      rw [ownOf, getSection_eq_none R p.1 hpm]
      rfl
    rw [hown, List.filter_nil, gFold_nil]

/-! ## Character-level computations for written lines -/

theorem replNl_of_not_mem (l : List Char) (h : '\n' ∉ l) : replNl l = l := by
  induction l with
  | nil => rfl
  | cons c t ih =>
    rw [replNl, if_neg (fun hc : c = '\n' => h (hc ▸ List.mem_cons_self c t))]
    exact congrArg _ (ih fun ht => h (List.mem_cons_of_mem c ht))

theorem rstripC_append (A B : List Char) :
    rstripC (A ++ B)
      = if (rstripC B).isEmpty then rstripC A else A ++ rstripC B := by
  induction A with
  | nil =>
    by_cases hb : (rstripC B).isEmpty
    · rw [if_pos hb, List.nil_append, List.isEmpty_iff.mp hb]
      rfl
    · rw [if_neg hb]
      rfl
  | cons c A2 ih =>
    by_cases hb : (rstripC B).isEmpty
    · rw [if_pos hb]
      show (if (rstripC (A2 ++ B)).isEmpty && isPyWs c then []
          else c :: rstripC (A2 ++ B)) = rstripC (c :: A2)
      rw [ih, if_pos hb]
      rfl
    · rw [if_neg hb]
      show (if (rstripC (A2 ++ B)).isEmpty && isPyWs c then []
          else c :: rstripC (A2 ++ B)) = (c :: A2) ++ rstripC B
      rw [ih, if_neg hb]
      have hb2 : rstripC B ≠ [] := fun he => hb (by simp [he])
      have hne : (A2 ++ rstripC B).isEmpty = false := by
        rcases hx : A2 ++ rstripC B with _ | ⟨y, ys⟩
        · exact absurd (List.append_eq_nil.mp hx).2 hb2
        · rfl
      simp [hne]

theorem lstripC_cons_of_not_ws (c : Char) (t : List Char)
    (h : isPyWs c = false) : lstripC (c :: t) = c :: t := by
  rw [lstripC, List.dropWhile_cons, if_neg (by simp [h])]

theorem not_ws_of_lstripC_fix (c : Char) (t : List Char)
    (h : lstripC (c :: t) = c :: t) : isPyWs c = false := by
  rcases hw : isPyWs c with _ | _
  · rfl
  · exfalso
    rw [lstripC, List.dropWhile_cons, if_pos (by simp [hw])] at h
    have hle := (@List.dropWhile_sublist Char t isPyWs).length_le
    rw [h, List.length_cons] at hle
    exact absurd hle (Nat.not_succ_le_self t.length)

theorem curIndentLevel_of_not_ws (c : Char) (t : List Char)
    (h : isPyWs c = false) : curIndentLevel (c :: t) = 0 := by
  simp [curIndentLevel, h, List.takeWhile_cons]

theorem matchSectLine_cons_ne (c : Char) (t : List Char) (hc : ¬(c = '[')) :
    matchSectLine (c :: t) = none := by
  unfold matchSectLine
  split
  · rename_i rest heq
    injection heq with h1 h2
    exact absurd h1 hc
  · rfl

theorem takeWhile_append_all (p : Char → Bool) (xs : List Char) (y : Char)
    (ys : List Char) (hxs : ∀ x ∈ xs, p x = true) (hy : p y = false) :
    (xs ++ y :: ys).takeWhile p = xs := by
  induction xs with
  | nil => simp [List.takeWhile_cons, hy]
  | cons a t ih =>
    have ha : p a = true := hxs a (List.mem_cons_self a t)
    rw [List.cons_append, List.takeWhile_cons, if_pos ha,
      ih (fun x hx => hxs x (List.mem_cons_of_mem a hx))]

theorem matchSectLine_eq (rest : List Char) :
    matchSectLine ('[' :: rest) =
      (if (rest.takeWhile (fun c => !(c == ']'))).isEmpty then none
       else
         match rest.drop (rest.takeWhile (fun c => !(c == ']'))).length with
         | ']' :: _ => some ⟨rest.takeWhile (fun c => !(c == ']'))⟩
         | _ => none) := rfl

theorem matchSectLine_hdr (n : String) (hne : n.data ≠ [])
    (hrb : ']' ∉ n.data) :
    matchSectLine ('[' :: (n.data ++ [']'])) = some n := by
  have ht : (n.data ++ [']']).takeWhile (fun c => !(c == ']')) = n.data := by
    refine takeWhile_append_all _ n.data ']' [] ?_ (by simp)
    intro x hx
    have hxne : x ≠ ']' := fun he => hrb (he ▸ hx)
    simp [hxne]
  simp only [matchSectLine_eq, ht, List.drop_left]
  rw [if_neg (by simp [List.isEmpty_iff, hne])]

theorem findIdx_shift (p : Char → Bool) (xs l : List Char)
    (hxs : ∀ x ∈ xs, p x = false) :
    ∀ i : Nat, List.findIdx? p (xs ++ l) i = List.findIdx? p l (i + xs.length) := by
  induction xs with
  | nil =>
    intro i
    simp
  | cons a t ih =>
    intro i
    have ha : p a = false := hxs a (List.mem_cons_self a t)
    rw [List.cons_append, List.findIdx?_cons, if_neg (by simp [ha])]
    rw [ih (fun x hx => hxs x (List.mem_cons_of_mem a hx)) (i + 1)]
    have harith : i + 1 + t.length = i + (a :: t).length := by
      rw [List.length_cons]
      omega
    rw [harith]

theorem foldl_append_data (a : String) (ls : List String) :
    (ls.foldl (· ++ ·) a).data = a.data ++ (ls.map String.data).flatten := by
  induction ls generalizing a with
  | nil => simp
  | cons s t ih =>
    rw [List.foldl_cons, ih]
    simp [string_data_append]

theorem join_data (ls : List String) :
    (String.join ls).data = (ls.map String.data).flatten := by
  show (ls.foldl (· ++ ·) "").data = (ls.map String.data).flatten
  rw [foldl_append_data]
  rfl

theorem linesToChars_nil : linesToChars [] = [] := rfl

theorem linesToChars_cons (l : List Char) (t : List (List Char)) :
    linesToChars (l :: t) = l ++ '\n' :: linesToChars t := rfl

theorem linesToChars_append (A B : List (List Char)) :
    linesToChars (A ++ B) = linesToChars A ++ linesToChars B := by
  induction A with
  | nil => rfl
  | cons l t ih => simp [linesToChars_cons, ih]

theorem optLine_data (p : String × String) :
    (optLine p).data = optChars p ++ ['\n'] := by
  simp [optLine, optChars, string_data_append]

theorem flatten_map_newline {α : Type} (f : α → List Char) (l : List α) :
    (l.map (fun x => f x ++ ['\n'])).flatten = linesToChars (l.map f) := by
  induction l with
  | nil => rfl
  | cons x t ih => simp [linesToChars_cons, ih]

theorem flatten_linesToChars {α : Type} (g : α → List (List Char))
    (l : List α) :
    (l.map (fun x => linesToChars (g x))).flatten
      = linesToChars ((l.map g).flatten) := by
  induction l with
  | nil => rfl
  | cons x t ih => simp [linesToChars_append, ih]

theorem writeSectionBlock_data (n : String) (items : List (String × String)) :
    (writeSectionBlock n items).data = linesToChars (blockLinesC n items) := by
  rw [writeSectionBlock, blockLinesC, linesToChars_cons, linesToChars_append,
    show linesToChars [[]] = ['\n'] from rfl]
  rw [string_data_append, string_data_append, string_data_append, join_data,
    List.map_map]
  rw [show String.data ∘ optLine = fun p => optChars p ++ ['\n'] from
    funext optLine_data]
  rw [flatten_map_newline]
  simp

theorem writeValues_data (st : IniState) (hne : st.defaults ≠ []) :
    (writeValues st).data =
      linesToChars (blockLinesC DEFAULT st.defaults
        ++ (st.sections.map (fun p => blockLinesC p.1 p.2)).flatten) := by
  rw [writeValues, if_neg (by simp [List.isEmpty_iff, hne])]
  rw [string_data_append, writeSectionBlock_data, join_data, List.map_map,
    linesToChars_append]
  refine congrArg _ ?_
  rw [show String.data ∘ (fun p : String × List (String × String) =>
        writeSectionBlock p.1 p.2)
      = fun p => linesToChars (blockLinesC p.1 p.2) from
    funext fun p => writeSectionBlock_data p.1 p.2]
  rw [flatten_linesToChars]

theorem splitOnChar_append_line (xs rest : List Char) (hxs : '\n' ∉ xs) :
    splitOnChar '\n' (xs ++ '\n' :: rest) = xs :: splitOnChar '\n' rest := by
  induction xs with
  | nil => rfl
  | cons c t ih =>
    have hc : ¬(c = '\n') := fun he => hxs (he ▸ List.mem_cons_self c t)
    have ht : '\n' ∉ t := fun hm => hxs (List.mem_cons_of_mem c hm)
    rw [List.cons_append]
    have heq : splitOnChar '\n' (c :: (t ++ '\n' :: rest))
        = (if c = '\n' then [] :: splitOnChar '\n' (t ++ '\n' :: rest)
           else
             match splitOnChar '\n' (t ++ '\n' :: rest) with
             | h :: t2 => (c :: h) :: t2
             | [] => [[c]]) := rfl
    rw [heq, if_neg hc, ih ht]

theorem splitOnChar_linesToChars (ls : List (List Char))
    (h : ∀ l ∈ ls, '\n' ∉ l) :
    splitOnChar '\n' (linesToChars ls) = ls ++ [[]] := by
  induction ls with
  | nil => rfl
  | cons l t ih =>
    rw [linesToChars_cons,
      splitOnChar_append_line l _ (h l (List.mem_cons_self l t)),
      ih (fun x hx => h x (List.mem_cons_of_mem l hx))]
    rfl

/-! ## Reader-state bookkeeping for the round trip -/

theorem intercalate_cons_cons (sep a b : List Char) (t : List (List Char)) :
    List.intercalate sep (a :: b :: t)
      = a ++ (sep ++ List.intercalate sep (b :: t)) := rfl

theorem intercalate_nl_snoc (t : List (List Char)) (x y : List Char) :
    List.intercalate ['\n'] ((y :: t) ++ [x])
      = List.intercalate ['\n'] (y :: t) ++ '\n' :: x := by
  induction t generalizing y with
  | nil =>
    rw [show ((y :: ([] : List (List Char))) ++ [x]) = y :: x :: [] from rfl,
      intercalate_cons_cons]
    simp [List.intercalate, List.intersperse]
  | cons z t2 ih =>
    rw [show ((y :: z :: t2) ++ [x]) = y :: ((z :: t2) ++ [x]) from rfl]
    rw [show ((z :: t2) ++ [x]) = z :: (t2 ++ [x]) from rfl]
    rw [intercalate_cons_cons]
    rw [show (z :: (t2 ++ [x])) = (z :: t2) ++ [x] from rfl, ih z]
    rw [intercalate_cons_cons]
    simp [List.append_assoc]

theorem joinVal_snoc_nil (parts : List (List Char)) :
    joinVal (parts ++ [[]]) = joinVal parts := by
  rcases parts with _ | ⟨y, t⟩
  · rfl
  · rw [joinVal, joinVal, intercalate_nl_snoc t [] y]
    rw [show (List.intercalate ['\n'] (y :: t) ++ '\n' :: [])
        = List.intercalate ['\n'] (y :: t) ++ ['\n'] from rfl]
    rw [rstripC_append, if_pos (by decide)]

theorem appendToCur_cursect (ps : PState) (seg : List Char) :
    (appendToCur ps seg).cursect = ps.cursect := by
  rw [appendToCur]
  rcases hc : ps.cursect with _ | sn <;> rcases ho : ps.optname with _ | optn
  · exact hc
  · exact hc
  · exact hc
  · by_cases h1 : (optn == "")
    · simp [h1, hc]
    · by_cases h2 : (sn == DEFAULT)
      · simp [h1, h2]
      · simp [h1, h2]

theorem appendToCur_indent (ps : PState) (seg : List Char) :
    (appendToCur ps seg).indentLevel = ps.indentLevel := by
  rw [appendToCur]
  rcases hc : ps.cursect with _ | sn <;> rcases ho : ps.optname with _ | optn
  · rfl
  · rfl
  · rfl
  · by_cases h1 : (optn == "")
    · simp [h1]
    · by_cases h2 : (sn == DEFAULT)
      · simp [h1, h2]
      · simp [h1, h2]

theorem finalizeP_appendToCur (ps : PState) :
    finalizeP (appendToCur ps []) = finalizeP ps := by
  rw [appendToCur]
  rcases hc : ps.cursect with _ | sn <;> rcases ho : ps.optname with _ | optn
  · rfl
  · rfl
  · rfl
  · by_cases h1 : (optn == "")
    · simp [h1]
    · by_cases h2 : (sn == DEFAULT)
      · simp [h1, h2, finalizeP, List.map_map, Function.comp, apply_ite,
          joinVal_snoc_nil]
      · simp [h1, h2, finalizeP, List.map_map, Function.comp, apply_ite,
          joinVal_snoc_nil]

theorem stepLine_blank (ps : PState) :
    stepLine ps [] = some (appendToCur ps []) := rfl

theorem stepLine_header (ps : PState) (n : String) (hind : ps.indentLevel = 0)
    (hne : n.data ≠ []) (hrb : ']' ∉ n.data) :
    stepLine ps ('[' :: (n.data ++ [']']))
      = enterSection { ps with indentLevel := 0 } n := by
  have hstrip : stripC ('[' :: (n.data ++ [']'])) = '[' :: (n.data ++ [']']) := by
    rw [stripC, lstripC_cons_of_not_ws _ _ (by decide)]
    rw [show ('[' :: (n.data ++ [']'])) = ('[' :: n.data) ++ [']'] from rfl]
    rw [rstripC_append, if_neg (by decide)]
    rfl
  simp only [stepLine, hstrip, hind]
  simp only [show ('[' == '#' || '[' == ';') = false from rfl,
    Bool.false_eq_true, if_false, List.isEmpty_cons,
    curIndentLevel_of_not_ws '[' (n.data ++ [']']) (by decide),
    show (decide ((0 : Nat) < 0)) = false from rfl, Bool.and_false]
  rw [matchSectLine_hdr n hne hrb]
theorem strip_optChars (k v : String) (hk : ValidKey k) (hv : ValidVal v) :
    stripC (optChars (k, v))
      = (k.data ++ [' ', '='])
          ++ (if v.data.isEmpty then [] else ' ' :: v.data) := by
  obtain ⟨hk0, hkl, hkr, hklow, hknl, hkeq, hkcol, hkh1, hkh2, hkh3⟩ := hk
  obtain ⟨hvl, hvr, hvnl⟩ := hv
  rcases hd : k.data with _ | ⟨c, t⟩
  · exact absurd hd hk0
  · have hklc : lstripC (c :: t) = c :: t := by
      rw [← hd]
      exact hkl
    have hcw : isPyWs c = false := not_ws_of_lstripC_fix c t hklc
    show stripC (k.data ++ ' ' :: '=' :: ' ' :: replNl v.data) = _
    rw [replNl_of_not_mem v.data hvnl, hd]
    rw [show ((c :: t) ++ ' ' :: '=' :: ' ' :: v.data)
        = c :: (t ++ ' ' :: '=' :: ' ' :: v.data) from rfl]
    rw [stripC, lstripC_cons_of_not_ws c _ hcw]
    by_cases hve : v.data.isEmpty
    · rw [if_pos hve]
      rw [List.isEmpty_iff.mp hve]
      rw [show (c :: (t ++ ' ' :: '=' :: ' ' :: ([] : List Char)))
          = ((c :: t) ++ [' ', '=']) ++ [' '] from by simp]
      rw [rstripC_append, if_pos (by decide)]
      rw [rstripC_append, if_neg (by decide)]
      rw [show rstripC [' ', '='] = [' ', '='] from rfl]
      simp
    · rw [if_neg hve]
      have hvne : v.data ≠ [] := fun he => hve (by simp [he])
      have hvif : v.data.isEmpty = false := by
        rcases hx : v.data with _ | _
        · exact absurd hx hvne
        · rfl
      have hrs : rstripC (' ' :: v.data) = ' ' :: v.data := by
        show (if (rstripC v.data).isEmpty && isPyWs ' ' then []
            else ' ' :: rstripC v.data) = ' ' :: v.data
        rw [hvr, hvif]
        rfl
      rw [show (c :: (t ++ ' ' :: '=' :: ' ' :: v.data))
          = ((c :: t) ++ [' ', '=']) ++ (' ' :: v.data) from by simp]
      rw [rstripC_append, hrs, if_neg (by simp)]

theorem stepLine_opt (ps : PState) (sect : String) (k v : String)
    (hind : ps.indentLevel = 0) (hcur : ps.cursect = some sect)
    (hk : ValidKey k) (hv : ValidVal v) :
    stepLine ps (optChars (k, v))
      = parseOptLine { ps with indentLevel := 0 } sect
          ((k.data ++ [' ', '='])
            ++ (if v.data.isEmpty then [] else ' ' :: v.data)) := by
  have hstrip := strip_optChars k v hk hv
  obtain ⟨hk0, hkl, hkr, hklow, hknl, hkeq, hkcol, hkh1, hkh2, hkh3⟩ := hk
  rcases hd : k.data with _ | ⟨c, t⟩
  · exact absurd hd hk0
  · have hklc : lstripC (c :: t) = c :: t := by
      rw [← hd]
      exact hkl
    have hcw : isPyWs c = false := not_ws_of_lstripC_fix c t hklc
    have hch : c = (k.data.headD ' ') := by rw [hd]; rfl
    have hc1 : ¬(c = '#') := fun he => hkh1 (hch ▸ he)
    have hc2 : ¬(c = ';') := fun he => hkh2 (hch ▸ he)
    have hc3 : ¬(c = '[') := fun he => hkh3 (hch ▸ he)
    have hcom : ((c == '#') || (c == ';')) = false := by simp [hc1, hc2]
    have hval : (k.data ++ [' ', '='])
          ++ (if v.data.isEmpty then [] else ' ' :: v.data)
        = c :: ((t ++ [' ', '='])
          ++ (if v.data.isEmpty then [] else ' ' :: v.data)) := by
      rw [hd]
      simp
    have hline : optChars (k, v)
        = c :: (t ++ ' ' :: '=' :: ' ' :: replNl v.data) := by
      show k.data ++ ' ' :: '=' :: ' ' :: replNl v.data = _
      rw [hd]
      rfl
    have hci : curIndentLevel (optChars (k, v)) = 0 := by
      rw [hline]
      exact curIndentLevel_of_not_ws c _ hcw
    simp only [stepLine, hstrip, hind, hval, hcom, Bool.false_eq_true,
      if_false, List.isEmpty_cons, hci,
      show (decide ((0 : Nat) < 0)) = false from rfl, Bool.and_false,
      matchSectLine_cons_ne c
        ((t ++ [' ', '=']) ++ (if v.data.isEmpty then [] else ' ' :: v.data))
        hc3,
      hcur]
    simp

theorem parseOptLine_optChars (ps : PState) (sect : String) (k v : String)
    (hk : ValidKey k) (hv : ValidVal v) :
    parseOptLine ps sect
        ((k.data ++ [' ', '='])
          ++ (if v.data.isEmpty then [] else ' ' :: v.data))
      = (if sect == DEFAULT then
           if keyMemV ps.defaults k then none
           else some { ps with
             defaults := (ps.defaults ++ [(k, [v.data])])
             optname := some k }
         else
           match ps.sections.find? (fun q => q.1 == sect) with
           | none => none
           | some entry =>
             if keyMemV entry.2 k then none
             else some { ps with
               sections := (ps.sections.map
                 (fun q =>
                   if q.1 == sect then (q.1, q.2 ++ [(k, [v.data])]) else q))
               optname := some k }) := by
  obtain ⟨hk0, hkl, hkr, hklow, hknl, hkeq, hkcol, hkh1, hkh2, hkh3⟩ := hk
  obtain ⟨hvl, hvr, hvnl⟩ := hv
  have hkif : k.data.isEmpty = false := by
    rcases hx : k.data with _ | _
    · exact absurd hx hk0
    · rfl
  generalize hsf : (if v.data.isEmpty then ([] : List Char)
      else ' ' :: v.data) = sfx
  have hall : ∀ x ∈ k.data ++ [' '], ((x == '=') || (x == ':')) = false := by
    intro x hx
    rcases List.mem_append.mp hx with h1 | h2
    · have hx1 : x ≠ '=' := fun he => hkeq (he ▸ h1)
      have hx2 : x ≠ ':' := fun he => hkcol (he ▸ h1)
      simp [hx1, hx2]
    · have hx0 : x = ' ' := by simpa using h2
      rw [hx0]
      rfl
  have hgrp1 : (k.data ++ [' ', '=']) ++ sfx
      = (k.data ++ [' ']) ++ ('=' :: sfx) := by simp
  have hdelim : findDelimIdx ((k.data ++ [' ', '=']) ++ sfx)
      = some (k.data.length + 1) := by
    rw [findDelimIdx, hgrp1]
    rw [findIdx_shift _ (k.data ++ [' ']) ('=' :: sfx) hall 0]
    rw [List.findIdx?_cons, if_pos (show (('=' == '=') || ('=' == ':')) = true
      from rfl)]
    simp
  have htake : ((k.data ++ [' ', '=']) ++ sfx).take (k.data.length + 1)
      = k.data ++ [' '] := by
    rw [hgrp1]
    exact List.take_left' (by simp)
  have hrawname : rstripC (k.data ++ [' ']) = k.data := by
    rw [rstripC_append, if_pos (by decide)]
    exact hkr
  have hdrop : ((k.data ++ [' ', '=']) ++ sfx).drop (k.data.length + 1 + 1)
      = sfx := List.drop_left' (by simp)
  have hstripsfx : stripC sfx = v.data := by
    rw [← hsf]
    by_cases hve : v.data.isEmpty
    · rw [if_pos hve, List.isEmpty_iff.mp hve]
      rfl
    · rw [if_neg hve]
      have hvne : v.data ≠ [] := fun he => hve (by simp [he])
      rw [stripC, lstripC, List.dropWhile_cons, if_pos (by decide)]
      rw [show List.dropWhile isPyWs v.data = lstripC v.data from rfl, hvl]
      exact hvr
  simp only [parseOptLine, hdelim, htake, hrawname, hkif, Bool.false_eq_true,
    if_false, hklow, show (⟨k.data⟩ : String) = k from rfl, hdrop, hstripsfx]

theorem keyMemV_eq_keyMem (pend : List (String × List (List Char)))
    (D : List (String × String)) (k : String)
    (h : pend.map (fun p => (p.1, joinVal p.2)) = D) :
    keyMemV pend k = keyMem D k := by
  subst h
  induction pend with
  | nil => rfl
  | cons a t ih =>
    rw [keyMemV, keyMem] at ih ⊢
    rw [List.map_cons, List.any_cons, List.any_cons, ih]

theorem joinVal_single (x : List Char) : joinVal [x] = ⟨rstripC x⟩ := by
  rw [joinVal]
  congr 1
  simp [List.intercalate, List.intersperse]

theorem joinVal_single_valid (v : String) (hv : ValidVal v) :
    joinVal [v.data] = v := by
  rw [joinVal_single, hv.2.1]

theorem find?_sections_map
    (pend : List (String × List (String × List (List Char)))) (s : String) :
    (pend.map (fun q => (q.1, q.2.map (fun p => (p.1, joinVal p.2))))).find?
        (fun q => q.1 == s)
      = (pend.find? (fun q => q.1 == s)).map
          (fun q => (q.1, q.2.map (fun p => (p.1, joinVal p.2)))) := by
  induction pend with
  | nil => rfl
  | cons a t ih =>
    rw [List.map_cons]
    by_cases ha : (a.1 == s)
    · rw [find?_cons_true (fun q => q.1 == s)
        ((a.1, a.2.map (fun p => (p.1, joinVal p.2)))) _ ha]
      rw [find?_cons_true (fun q => q.1 == s) a t ha]
      rfl
    · have ha2 : (a.1 == s) = false := by simpa using ha
      rw [find?_cons_false (fun q => q.1 == s)
        ((a.1, a.2.map (fun p => (p.1, joinVal p.2))))
        (t.map (fun q => (q.1, q.2.map (fun p => (p.1, joinVal p.2))))) ha2]
      rw [find?_cons_false (fun q => q.1 == s) a t ha2, ih]

theorem map_finSec_update
    (l : List (String × List (String × List (List Char))))
    (sect k : String) (vparts : List (List Char)) :
    ((l.map (fun q =>
        if q.1 == sect then (q.1, q.2 ++ [(k, vparts)]) else q)).map
          (fun q => (q.1, q.2.map (fun p => (p.1, joinVal p.2)))))
      = ((l.map (fun q => (q.1, q.2.map (fun p => (p.1, joinVal p.2))))).map
          (fun r =>
            if r.1 == sect then (r.1, r.2 ++ [(k, joinVal vparts)]) else r)) := by
  rw [List.map_map, List.map_map]
  apply List.map_congr_left
  intro q _
  simp only [Function.comp_apply]
  by_cases hq : (q.1 == sect)
  · simp [hq]
  · simp [hq]

theorem midParse_blank (ps : PState) (D : List (String × String))
    (Secs : List (String × List (String × String))) (sect : String)
    (hmp : MidParse ps D Secs sect) :
    ∃ ps2, stepLine ps [] = some ps2 ∧ MidParse ps2 D Secs sect := by
  obtain ⟨hfin, hcur, hind⟩ := hmp
  exact ⟨appendToCur ps [], stepLine_blank ps,
    by rw [finalizeP_appendToCur]; exact hfin,
    by rw [appendToCur_cursect]; exact hcur,
    by rw [appendToCur_indent]; exact hind⟩

theorem midParse_header (ps : PState) (D : List (String × String))
    (Secs : List (String × List (String × String))) (sect n : String)
    (hmp : MidParse ps D Secs sect) (hn : ValidSecName n)
    (hfresh : n ∉ Secs.map Prod.fst) :
    ∃ ps2, stepLine ps ('[' :: (n.data ++ [']'])) = some ps2 ∧
      MidParse ps2 D (Secs ++ [(n, [])]) n := by
  obtain ⟨hfin, hcur, hind⟩ := hmp
  obtain ⟨hn0, hnrb, hnnl, hnd⟩ := hn
  rw [stepLine_header ps n hind hn0 hnrb, enterSection,
    if_neg (by simp [hnd])]
  have hsm : ps.sections.map
      (fun q => (q.1, q.2.map (fun p => (p.1, joinVal p.2)))) = Secs :=
    congrArg IniState.sections hfin
  have hdm : ps.defaults.map (fun p => (p.1, joinVal p.2)) = D :=
    congrArg IniState.defaults hfin
  have hany : ps.sections.any (fun q => q.1 == n) = false := by
    rcases hq : ps.sections.any (fun q => q.1 == n) with _ | _
    · rfl
    · exfalso
      obtain ⟨q, hqm, hqe⟩ := List.any_eq_true.mp hq
      apply hfresh
      rw [← hsm]
      exact List.mem_map.mpr
        ⟨(q.1, q.2.map (fun p => (p.1, joinVal p.2))),
          List.mem_map.mpr ⟨q, hqm, rfl⟩, by simpa using hqe⟩
  rw [if_neg (by simp [hany])]
  refine ⟨_, rfl, ⟨?_, rfl, rfl⟩⟩
  rw [finalizeP]
  dsimp only
  rw [List.map_append, hdm, hsm]
  rfl

theorem midParse_opt_default (ps : PState) (D : List (String × String))
    (Secs : List (String × List (String × String))) (k v : String)
    (hmp : MidParse ps D Secs DEFAULT) (hk : ValidKey k) (hv : ValidVal v)
    (hmem : keyMem D k = false) :
    ∃ ps2, stepLine ps (optChars (k, v)) = some ps2 ∧
      MidParse ps2 (D ++ [(k, v)]) Secs DEFAULT := by
  obtain ⟨hfin, hcur, hind⟩ := hmp
  rw [stepLine_opt ps DEFAULT k v hind hcur hk hv,
    parseOptLine_optChars _ DEFAULT k v hk hv,
    if_pos (show (DEFAULT == DEFAULT) = true from rfl)]
  have hdm : ps.defaults.map (fun p => (p.1, joinVal p.2)) = D :=
    congrArg IniState.defaults hfin
  have hsm : ps.sections.map
      (fun q => (q.1, q.2.map (fun p => (p.1, joinVal p.2)))) = Secs :=
    congrArg IniState.sections hfin
  rw [show ({ ps with indentLevel := 0 } : PState).defaults = ps.defaults
    from rfl]
  rw [keyMemV_eq_keyMem ps.defaults D k hdm, hmem,
    if_neg (by simp)]
  refine ⟨_, rfl, ⟨?_, hcur, rfl⟩⟩
  rw [finalizeP]
  dsimp only
  rw [List.map_append, hdm, hsm,
    show ([(k, [v.data])].map (fun p => (p.1, joinVal p.2)))
      = [(k, joinVal [v.data])] from rfl,
    joinVal_single_valid v hv]

theorem midParse_opt_named (ps : PState) (D : List (String × String))
    (done : List (String × List (String × String)))
    (I : List (String × String)) (sect k v : String)
    (hmp : MidParse ps D (done ++ [(sect, I)]) sect)
    (hsD : (sect == DEFAULT) = false)
    (hfresh : sect ∉ done.map Prod.fst)
    (hk : ValidKey k) (hv : ValidVal v) (hmem : keyMem I k = false) :
    ∃ ps2, stepLine ps (optChars (k, v)) = some ps2 ∧
      MidParse ps2 D (done ++ [(sect, I ++ [(k, v)])]) sect := by
  obtain ⟨hfin, hcur, hind⟩ := hmp
  rw [stepLine_opt ps sect k v hind hcur hk hv,
    parseOptLine_optChars _ sect k v hk hv,
    if_neg (by simp [hsD])]
  have hdm : ps.defaults.map (fun p => (p.1, joinVal p.2)) = D :=
    congrArg IniState.defaults hfin
  have hsm : ps.sections.map
      (fun q => (q.1, q.2.map (fun p => (p.1, joinVal p.2))))
      = done ++ [(sect, I)] :=
    congrArg IniState.sections hfin
  have hfind0 := find?_sections_map ps.sections sect
  rw [hsm] at hfind0
  have hdone : (done ++ [(sect, I)]).find? (fun q => q.1 == sect)
      = some (sect, I) := by
    rw [List.find?_append]
    have h1 : done.find? (fun q => q.1 == sect) = none := by
      apply List.find?_eq_none.mpr
      intro q hq he
      exact hfresh (List.mem_map.mpr ⟨q, hq, by simpa using he⟩)
    rw [h1, find?_cons_true _ _ _ (by simp)]
    rfl
  rw [hdone] at hfind0
  obtain ⟨entry, hen, hfe⟩ := Option.map_eq_some'.mp hfind0.symm
  rw [show ({ ps with indentLevel := 0 } : PState).sections = ps.sections
    from rfl]
  simp only [hen]
  have hI : entry.2.map (fun p => (p.1, joinVal p.2)) = I :=
    congrArg Prod.snd hfe
  rw [keyMemV_eq_keyMem entry.2 I k hI, hmem, if_neg (by simp)]
  refine ⟨_, rfl, ⟨?_, hcur, rfl⟩⟩
  rw [finalizeP]
  dsimp only
  rw [map_finSec_update ps.sections sect k [v.data], hsm, List.map_append]
  have hdone2 : done.map (fun r =>
      if r.1 == sect then (r.1, r.2 ++ [(k, joinVal [v.data])]) else r)
      = done := by
    have h0 : done.map (fun r =>
        if r.1 == sect then (r.1, r.2 ++ [(k, joinVal [v.data])]) else r)
        = done.map (fun r => r) := by
      apply List.map_congr_left
      intro r hr
      rw [if_neg (by
        simp only [beq_iff_eq]
        exact fun he => hfresh (List.mem_map.mpr ⟨r, hr, he⟩))]
    rw [h0]
    exact List.map_id done
  rw [hdone2, hdm]
  rw [show ([(sect, I)].map (fun r =>
      if r.1 == sect then (r.1, r.2 ++ [(k, joinVal [v.data])]) else r))
    = [if (sect == sect) then (sect, I ++ [(k, joinVal [v.data])])
        else (sect, I)] from rfl]
  rw [if_pos (show (sect == sect) = true from by simp),
    joinVal_single_valid v hv]

theorem some_bind_eq {α β : Type} (a : α) (f : α → Option β) :
    (some a >>= f) = f a := rfl

theorem midParse_opt_run_default (items : List (String × String)) :
    ∀ (ps : PState) (D : List (String × String))
      (Secs : List (String × List (String × String))),
      MidParse ps D Secs DEFAULT →
      (∀ p ∈ items, ValidKey p.1 ∧ ValidVal p.2) →
      (items.map Prod.fst).Nodup →
      (∀ p ∈ items, keyMem D p.1 = false) →
      ∃ ps2, (items.map optChars).foldlM stepLine ps = some ps2 ∧
        MidParse ps2 (D ++ items) Secs DEFAULT := by
  induction items with
  | nil =>
    intro ps D Secs hmp _ _ _
    exact ⟨ps, rfl, by rw [List.append_nil]; exact hmp⟩
  | cons a t ih =>
    intro ps D Secs hmp hval hnd hdis
    obtain ⟨k, v⟩ := a
    obtain ⟨hka, hva⟩ := hval (k, v) (List.mem_cons_self _ t)
    obtain ⟨ps2, hstep, hmp2⟩ := midParse_opt_default ps D Secs k v hmp hka
      hva (hdis (k, v) (List.mem_cons_self _ t))
    obtain ⟨hk1, hnd2⟩ := List.nodup_cons.mp hnd
    have hdis2 : ∀ p ∈ t, keyMem (D ++ [(k, v)]) p.1 = false := by
      intro p hp
      rw [keyMem_append, hdis p (List.mem_cons_of_mem _ hp)]
      rw [show keyMem [(k, v)] p.1 = (k == p.1) from by
        rw [keyMem, List.any_cons, List.any_nil, Bool.or_false]]
      rw [show (k == p.1) = false from by
        simp only [beq_eq_false_iff_ne, ne_eq]
        intro he
        exact hk1 (List.mem_map.mpr ⟨p, hp, he.symm⟩)]
      rfl
    obtain ⟨ps3, hrun, hmp3⟩ := ih ps2 (D ++ [(k, v)]) Secs hmp2
      (fun p hp => hval p (List.mem_cons_of_mem _ hp)) hnd2 hdis2
    refine ⟨ps3, ?_, ?_⟩
    · rw [List.map_cons, List.foldlM_cons, hstep, some_bind_eq, hrun]
    · have hass : (D ++ [(k, v)]) ++ t = D ++ ((k, v) :: t) := by simp
      rw [hass] at hmp3
      exact hmp3

theorem midParse_opt_run_named (items : List (String × String)) :
    ∀ (ps : PState) (D : List (String × String))
      (done : List (String × List (String × String)))
      (I : List (String × String)) (sect : String),
      MidParse ps D (done ++ [(sect, I)]) sect →
      (sect == DEFAULT) = false →
      sect ∉ done.map Prod.fst →
      (∀ p ∈ items, ValidKey p.1 ∧ ValidVal p.2) →
      (items.map Prod.fst).Nodup →
      (∀ p ∈ items, keyMem I p.1 = false) →
      ∃ ps2, (items.map optChars).foldlM stepLine ps = some ps2 ∧
        MidParse ps2 D (done ++ [(sect, I ++ items)]) sect := by
  induction items with
  | nil =>
    intro ps D done I sect hmp _ _ _ _ _
    exact ⟨ps, rfl, by rw [List.append_nil]; exact hmp⟩
  | cons a t ih =>
    intro ps D done I sect hmp hsD hfresh hval hnd hdis
    obtain ⟨k, v⟩ := a
    obtain ⟨hka, hva⟩ := hval (k, v) (List.mem_cons_self _ t)
    obtain ⟨ps2, hstep, hmp2⟩ := midParse_opt_named ps D done I sect k v hmp
      hsD hfresh hka hva (hdis (k, v) (List.mem_cons_self _ t))
    obtain ⟨hk1, hnd2⟩ := List.nodup_cons.mp hnd
    have hdis2 : ∀ p ∈ t, keyMem (I ++ [(k, v)]) p.1 = false := by
      intro p hp
      rw [keyMem_append, hdis p (List.mem_cons_of_mem _ hp)]
      rw [show keyMem [(k, v)] p.1 = (k == p.1) from by
        rw [keyMem, List.any_cons, List.any_nil, Bool.or_false]]
      rw [show (k == p.1) = false from by
        simp only [beq_eq_false_iff_ne, ne_eq]
        intro he
        exact hk1 (List.mem_map.mpr ⟨p, hp, he.symm⟩)]
      rfl
    obtain ⟨ps3, hrun, hmp3⟩ := ih ps2 D done (I ++ [(k, v)]) sect hmp2 hsD
      hfresh (fun p hp => hval p (List.mem_cons_of_mem _ hp)) hnd2 hdis2
    refine ⟨ps3, ?_, ?_⟩
    · rw [List.map_cons, List.foldlM_cons, hstep, some_bind_eq, hrun]
    · have hass : (I ++ [(k, v)]) ++ t = I ++ ((k, v) :: t) := by simp
      rw [hass] at hmp3
      exact hmp3

theorem midParse_block (ps : PState) (D : List (String × String))
    (Secs : List (String × List (String × String))) (sect n : String)
    (items : List (String × String))
    (hmp : MidParse ps D Secs sect) (hn : ValidSecName n)
    (hfresh : n ∉ Secs.map Prod.fst)
    (hitems : ValidItems items) :
    ∃ ps2, (blockLinesC n items).foldlM stepLine ps = some ps2 ∧
      MidParse ps2 D (Secs ++ [(n, items)]) n := by
  obtain ⟨ps1, h1, hmp1⟩ := midParse_header ps D Secs sect n hmp hn hfresh
  have hsD : (n == DEFAULT) = false := by simp [hn.2.2.2]
  obtain ⟨ps2, h2, hmp2⟩ := midParse_opt_run_named items ps1 D Secs [] n hmp1
    hsD hfresh (fun p hp => hitems.2 p hp) hitems.1 (fun p _ => rfl)
  obtain ⟨ps3, h3, hmp3⟩ := midParse_blank ps2 D (Secs ++ [(n, [] ++ items)])
    n hmp2
  refine ⟨ps3, ?_, by rw [show ([] : List (String × String)) ++ items = items
    from rfl] at hmp3; exact hmp3⟩
  rw [blockLinesC, List.foldlM_cons, h1, some_bind_eq,
    List.foldlM_append, h2, some_bind_eq, List.foldlM_cons, h3,
    some_bind_eq, List.foldlM_nil]
  rfl

theorem midParse_blocks (secs : List (String × List (String × String))) :
    ∀ (ps : PState) (D : List (String × String))
      (Secs : List (String × List (String × String))) (sect : String),
      MidParse ps D Secs sect →
      (∀ q ∈ secs, ValidSecName q.1) →
      (∀ q ∈ secs, ValidItems q.2) →
      (∀ q ∈ secs, q.1 ∉ Secs.map Prod.fst) →
      (secs.map Prod.fst).Nodup →
      ∃ ps2 sect2,
        ((secs.map (fun q => blockLinesC q.1 q.2)).flatten).foldlM stepLine ps
          = some ps2 ∧
        MidParse ps2 D (Secs ++ secs) sect2 := by
  induction secs with
  | nil =>
    intro ps D Secs sect hmp _ _ _ _
    exact ⟨ps, sect, rfl, by rw [List.append_nil]; exact hmp⟩
  | cons q t ih =>
    intro ps D Secs sect hmp hnames hitems hfresh hnd
    obtain ⟨n, items⟩ := q
    obtain ⟨ps1, h1, hmp1⟩ := midParse_block ps D Secs sect n items hmp
      (hnames (n, items) (List.mem_cons_self _ t))
      (hfresh (n, items) (List.mem_cons_self _ t))
      (hitems (n, items) (List.mem_cons_self _ t))
    obtain ⟨hn1, hnd2⟩ := List.nodup_cons.mp hnd
    have hfresh2 : ∀ r ∈ t, r.1 ∉ (Secs ++ [(n, items)]).map Prod.fst := by
      intro r hr hmem
      rw [List.map_append, List.mem_append] at hmem
      rcases hmem with hA | hB
      · exact hfresh r (List.mem_cons_of_mem _ hr) hA
      · have : r.1 = n := by simpa using hB
        exact hn1 (this ▸ List.mem_map.mpr ⟨r, hr, rfl⟩)
    obtain ⟨ps2, sect2, h2, hmp2⟩ := ih ps1 D (Secs ++ [(n, items)]) n hmp1
      (fun r hr => hnames r (List.mem_cons_of_mem _ hr))
      (fun r hr => hitems r (List.mem_cons_of_mem _ hr)) hfresh2 hnd2
    refine ⟨ps2, sect2, ?_, ?_⟩
    · rw [List.map_cons, List.flatten_cons, List.foldlM_append, h1,
        some_bind_eq, h2]
    · have hass : (Secs ++ [(n, items)]) ++ t = Secs ++ ((n, items) :: t) := by
        simp
      rw [hass] at hmp2
      exact hmp2

theorem blockLinesC_no_nl (n : String) (items : List (String × String))
    (hnl : '\n' ∉ n.data)
    (hitems : ∀ p ∈ items, ValidKey p.1 ∧ ValidVal p.2) :
    ∀ l ∈ blockLinesC n items, '\n' ∉ l := by
  intro l hl
  rw [blockLinesC] at hl
  rcases List.mem_cons.mp hl with h1 | h2
  · rw [h1]
    intro hmem
    rcases List.mem_cons.mp hmem with h3 | h4
    · exact absurd h3 (by decide)
    · rcases List.mem_append.mp h4 with h5 | h6
      · exact hnl h5
      · simp at h6
  · rcases List.mem_append.mp h2 with h3 | h4
    · obtain ⟨p, hp, hpe⟩ := List.mem_map.mp h3
      obtain ⟨hk, hv⟩ := hitems p hp
      rw [← hpe, optChars, replNl_of_not_mem p.2.data hv.2.2]
      intro hmem
      rcases List.mem_append.mp hmem with h5 | h6
      · exact hk.2.2.2.2.1 h5
      · simp at h6
        exact hv.2.2 h6
    · have h7 : l = [] := by simpa using h4
      rw [h7]
      exact List.not_mem_nil '\n'

theorem parse_write_roundtrip (S : IniState) (hS : ValidState S) :
    parseIni (writeValues S) = some S := by
  obtain ⟨⟨hndn, hdnm, hdi, hsi⟩, hdne, hsn⟩ := hS
  rw [parseIni, writeValues_data S hdne]
  have hlines : ∀ l ∈ blockLinesC DEFAULT S.defaults
      ++ (S.sections.map (fun p => blockLinesC p.1 p.2)).flatten,
      '\n' ∉ l := by
    intro l hl
    rcases List.mem_append.mp hl with hA | hB
    · exact blockLinesC_no_nl DEFAULT S.defaults (by decide)
        (fun p hp => hdi.2 p hp) l hA
    · obtain ⟨blk, hblk, hlb⟩ := List.mem_flatten.mp hB
      obtain ⟨q, hq, hqe⟩ := List.mem_map.mp hblk
      exact blockLinesC_no_nl q.1 q.2 ((hsn q hq).2.2.1)
        (fun p hp => (hsi q hq).2 p hp) l (hqe ▸ hlb)
  rw [splitOnChar_linesToChars _ hlines]
  have h0 : stepLine initPState ('[' :: (DEFAULT.data ++ [']']))
      = some { defaults := []
               sections := []
               cursect := some DEFAULT
               optname := none
               indentLevel := 0 } := by
    rw [stepLine_header initPState DEFAULT rfl (by decide) (by decide)]
    rfl
  have hmp0 : MidParse
      { defaults := []
        sections := []
        cursect := some DEFAULT
        optname := none
        indentLevel := 0 } [] [] DEFAULT := ⟨rfl, rfl, rfl⟩
  obtain ⟨ps1, hr1, hmp1⟩ := midParse_opt_run_default S.defaults _ [] []
    hmp0 (fun p hp => hdi.2 p hp) hdi.1 (fun p _ => rfl)
  obtain ⟨ps2, hb1, hmp2⟩ := midParse_blank ps1 ([] ++ S.defaults) [] DEFAULT
    hmp1
  obtain ⟨ps3, sect2, hr2, hmp3⟩ := midParse_blocks S.sections ps2
    ([] ++ S.defaults) [] DEFAULT hmp2 (fun q hq => hsn q hq)
    (fun q hq => hsi q hq) (fun q _ => List.not_mem_nil q.1) hndn
  obtain ⟨ps4, hb2, hmp4⟩ := midParse_blank ps3 ([] ++ S.defaults)
    ([] ++ S.sections) sect2 hmp3
  have hA : List.foldlM stepLine initPState (blockLinesC DEFAULT S.defaults)
      = some ps2 := by
    rw [blockLinesC, List.foldlM_cons, h0, some_bind_eq, List.foldlM_append,
      hr1, some_bind_eq, List.foldlM_cons, hb1, some_bind_eq,
      List.foldlM_nil]
    rfl
  have hAB : List.foldlM stepLine initPState (blockLinesC DEFAULT S.defaults
      ++ (S.sections.map (fun p => blockLinesC p.1 p.2)).flatten)
      = some ps3 := by
    rw [List.foldlM_append, hA, some_bind_eq, hr2]
  have hfull : List.foldlM stepLine initPState
      ((blockLinesC DEFAULT S.defaults
        ++ (S.sections.map (fun p => blockLinesC p.1 p.2)).flatten) ++ [[]])
      = some ps4 := by
    rw [List.foldlM_append, hAB, some_bind_eq, List.foldlM_cons, hb2,
      some_bind_eq, List.foldlM_nil]
    rfl
  rw [hfull]
  rw [show (some ps4).map finalizeP = some (finalizeP ps4) from rfl]
  rw [hmp4.1]
  rfl

/-! ## Stability of the repair pass -/

theorem beq_str_comm (a b : String) : (a == b) = (b == a) := by
  rcases hq : (b == a) with _ | _
  · simp only [beq_eq_false_iff_ne, ne_eq] at hq ⊢
    exact fun he => hq he.symm
  · have he : b = a := by simpa using hq
    simp [he]

theorem keyMem_gFold (base items : List (String × String)) (x : String) :
    keyMem (gFold base items) x = (keyMem base x || keyMem items x) := by
  induction items generalizing base with
  | nil =>
    rw [gFold_nil, show keyMem [] x = false from rfl, Bool.or_false]
  | cons a t ih =>
    rw [gFold_cons, ih, keyMem_setOpt]
    rw [show keyMem (a :: t) x = ((a.1 == x) || keyMem t x) from by
      rw [keyMem, List.any_cons]
      rfl]
    rw [beq_str_comm x a.1, Bool.or_assoc]

theorem map_fst_keep {β γ : Type} (l : List (String × β))
    (F : String × β → γ) :
    ((l.map (fun q => (q.1, F q))).map Prod.fst) = l.map Prod.fst := by
  rw [List.map_map]
  apply List.map_congr_left
  intro q _
  rfl

theorem find?_fst_self2 {β : Type} (l : List (String × β))
    (hnd : (l.map Prod.fst).Nodup) (s : String) (b : β) (hm : (s, b) ∈ l) :
    l.find? (fun q => q.1 == s) = some (s, b) := by
  induction l with
  | nil => cases hm
  | cons a t ih =>
    rw [List.map_cons] at hnd
    obtain ⟨h1, h2⟩ := List.nodup_cons.mp hnd
    rcases List.mem_cons.mp hm with he | ht
    · rw [← he]
      exact find?_cons_true _ _ _ (by simp)
    · have hs : s ∈ t.map Prod.fst := List.mem_map.mpr ⟨(s, b), ht, rfl⟩
      have hne : (a.1 == s) = false := by
        simp only [beq_eq_false_iff_ne, ne_eq]
        intro he2
        exact h1 (he2 ▸ hs)
      rw [find?_cons_false (fun q => q.1 == s) a t hne]
      exact ih h2 ht

theorem ownOf_mk_map (d : List (String × String))
    (dsec : List (String × List (String × String)))
    (F : String × List (String × String) → List (String × String))
    (hnd : (dsec.map Prod.fst).Nodup) (p : String × List (String × String))
    (hp : p ∈ dsec) :
    ownOf { defaults := d, sections := (dsec.map (fun q => (q.1, F q))) } p.1
      = F p := by
  rw [ownOf, getSection]
  have hm : (p.1, F p) ∈ dsec.map (fun q => (q.1, F q)) :=
    List.mem_map.mpr ⟨p, hp, rfl⟩
  have hnd2 : ((dsec.map (fun q => (q.1, F q))).map Prod.fst).Nodup := by
    rw [map_fst_keep]
    exact hnd
  rw [find?_fst_self2 _ hnd2 p.1 (F p) hm]
  rfl

theorem ownOf_mem (R : IniState) (n : String) (p : String × String)
    (hp : p ∈ ownOf R n) : ∃ sec ∈ R.sections, p ∈ sec.2 := by
  rw [ownOf] at hp
  rcases hg : getSection R n with _ | own
  · rw [hg] at hp
    simp at hp
  · rw [hg] at hp
    rw [getSection] at hg
    rcases hf : R.sections.find? (fun q => q.1 == n) with _ | sec
    · rw [hf] at hg
      simp at hg
    · rw [hf] at hg
      have hsec : sec.2 = own := by simpa using hg
      exact ⟨sec, List.mem_of_find?_eq_some hf, hsec ▸ (hp : p ∈ own)⟩

theorem ownOf_nodup (R : IniState) (n : String) (hR : ValidReader R) :
    ((ownOf R n).map Prod.fst).Nodup := by
  rw [ownOf]
  rcases hg : getSection R n with _ | own
  · simp
  · rw [getSection] at hg
    rcases hf : R.sections.find? (fun q => q.1 == n) with _ | sec
    · rw [hf] at hg
      simp at hg
    · rw [hf] at hg
      have hsec : sec.2 = own := by simpa using hg
      have hv := (hR.2.2.2 sec (List.mem_of_find?_eq_some hf)).1
      rw [hsec] at hv
      exact hv

theorem validState_readMerge (h u : String) (R : IniState)
    (hR : ValidReader R) (hh : ValidVal h) (hu : ValidVal u) :
    ValidState (readMerge h u R) := by
  obtain ⟨hndn, hdnm, hdi, hsi⟩ := hR
  rw [readMerge_eq h u R ⟨hndn, hdnm, hdi, hsi⟩]
  have hsecs : (loadDefaultValues h u).sections
      = [("SSH",
            [("remoteuser", u), ("remotehost", h), ("port", "22")]),
          ("BACKUP",
            [("verbose", "True"), ("stats", "True"), ("list", "True"),
              ("show-rc", "True"), ("exclude-caches", "True"),
              ("filter", "AME"), ("compression", "lz4")]),
          ("PRUNE",
            [("verbose", "False"), ("stats", "True"), ("list", "True"),
              ("show-rc", "True"), ("keep-daily", "7"),
              ("keep-weekly", "4"), ("keep-monthly", "6")]),
          ("ENVIRONMENT", [("keyfile", NONE)])] := rfl
  have hnames : (loadDefaultValues h u).sections.map Prod.fst
      = ["SSH", "BACKUP", "PRUNE", "ENVIRONMENT"] := rfl
  have hdkeys : (loadDefaultValues h u).defaults.map Prod.fst
      = ["reponame", "repopath", "timestamp", "ssh", "prune"] := rfl
  have hdefs : (loadDefaultValues h u).defaults
      = [("reponame", h), ("repopath", NONE),
          ("timestamp", "%Y-%m-%dT%H:%M:%S"), ("ssh", "True"),
          ("prune", "True")] := rfl
  refine ⟨⟨?_, ?_, ?_, ?_⟩, ?_, ?_⟩
  · dsimp only
    rw [map_fst_keep, hnames]
    decide
  · dsimp only
    rw [map_fst_keep, hnames]
    decide
  · dsimp only
    refine ⟨gFold_nodup _ _ (by rw [hdkeys]; decide), ?_⟩
    intro p hp
    rcases gFold_mem _ _ p hp with h1 | h2
    · rw [hdefs] at h1
      simp only [List.mem_cons, List.not_mem_nil, or_false] at h1
      rcases h1 with h1 | h1 | h1 | h1 | h1 <;> rw [h1]
      · exact ⟨(show ValidKey "reponame" by unfold ValidKey; decide), hh⟩
      · exact ⟨(show ValidKey "repopath" by unfold ValidKey; decide), (show ValidVal NONE by unfold ValidVal; decide)⟩
      · exact ⟨(show ValidKey "timestamp" by unfold ValidKey; decide),
          (show ValidVal "%Y-%m-%dT%H:%M:%S" by unfold ValidVal; decide)⟩
      · exact ⟨(show ValidKey "ssh" by unfold ValidKey; decide), (show ValidVal "True" by unfold ValidVal; decide)⟩
      · exact ⟨(show ValidKey "prune" by unfold ValidKey; decide), (show ValidVal "True" by unfold ValidVal; decide)⟩
    · exact hdi.2 p h2
  · dsimp only
    intro sec hsec
    obtain ⟨q, hq, hqe⟩ := List.mem_map.mp hsec
    rw [← hqe]
    rw [hsecs] at hq
    simp only [List.mem_cons, List.not_mem_nil, or_false] at hq
    rcases hq with hq | hq | hq | hq
    · rw [hq]
      refine ⟨gFold_nodup _ _ (by
        rw [show List.map Prod.fst
            [("remoteuser", u), ("remotehost", h), ("port", "22")]
          = ["remoteuser", "remotehost", "port"] from rfl]
        decide), ?_⟩
      intro pr hpr
      rcases gFold_mem _ _ pr hpr with h1 | h2
      · simp only [List.mem_cons, List.not_mem_nil, or_false] at h1
        rcases h1 with h1 | h1 | h1 <;> rw [h1]
        · exact ⟨(show ValidKey "remoteuser" by unfold ValidKey; decide), hu⟩
        · exact ⟨(show ValidKey "remotehost" by unfold ValidKey; decide), hh⟩
        · exact ⟨(show ValidKey "port" by unfold ValidKey; decide), (show ValidVal "22" by unfold ValidVal; decide)⟩
      · obtain ⟨sec2, hs2, hp2⟩ := ownOf_mem R _ pr
          (List.mem_of_mem_filter h2)
        exact (hsi sec2 hs2).2 pr hp2
    · rw [hq]
      refine ⟨gFold_nodup _ _ (by decide), ?_⟩
      intro pr hpr
      rcases gFold_mem _ _ pr hpr with h1 | h2
      · have hlit : ∀ x ∈ [("verbose", "True"), ("stats", "True"),
            ("list", "True"), ("show-rc", "True"),
            ("exclude-caches", "True"), ("filter", "AME"),
            ("compression", "lz4")],
            ValidKey x.1 ∧ ValidVal x.2 := by
          unfold ValidKey ValidVal
          decide
        exact hlit pr h1
      · obtain ⟨sec2, hs2, hp2⟩ := ownOf_mem R _ pr
          (List.mem_of_mem_filter h2)
        exact (hsi sec2 hs2).2 pr hp2
    · rw [hq]
      refine ⟨gFold_nodup _ _ (by decide), ?_⟩
      intro pr hpr
      rcases gFold_mem _ _ pr hpr with h1 | h2
      · have hlit : ∀ x ∈ [("verbose", "False"), ("stats", "True"),
            ("list", "True"), ("show-rc", "True"), ("keep-daily", "7"),
            ("keep-weekly", "4"), ("keep-monthly", "6")],
            ValidKey x.1 ∧ ValidVal x.2 := by
          unfold ValidKey ValidVal
          decide
        exact hlit pr h1
      · obtain ⟨sec2, hs2, hp2⟩ := ownOf_mem R _ pr
          (List.mem_of_mem_filter h2)
        exact (hsi sec2 hs2).2 pr hp2
    · rw [hq]
      refine ⟨gFold_nodup _ _ (by decide), ?_⟩
      intro pr hpr
      rcases gFold_mem _ _ pr hpr with h1 | h2
      · have hlit : ∀ x ∈ [("keyfile", NONE)],
            ValidKey x.1 ∧ ValidVal x.2 := by
          unfold ValidKey ValidVal
          decide
        exact hlit pr h1
      · obtain ⟨sec2, hs2, hp2⟩ := ownOf_mem R _ pr
          (List.mem_of_mem_filter h2)
        exact (hsi sec2 hs2).2 pr hp2
  · dsimp only
    intro he
    have hk := keyMem_gFold (loadDefaultValues h u).defaults R.defaults
      "reponame"
    rw [he] at hk
    rw [show keyMem (loadDefaultValues h u).defaults "reponame" = true
      from rfl] at hk
    simp at hk
    rw [show keyMem ([] : List (String × String)) "reponame" = false
      from rfl] at hk
    exact Bool.false_ne_true hk
  · dsimp only
    intro sec hsec
    obtain ⟨q, hq, hqe⟩ := List.mem_map.mp hsec
    rw [← hqe]
    rw [hsecs] at hq
    simp only [List.mem_cons, List.not_mem_nil, or_false] at hq
    rcases hq with hq | hq | hq | hq <;> rw [hq]
    · exact (show ValidSecName "SSH" by unfold ValidSecName; decide)
    · exact (show ValidSecName "BACKUP" by unfold ValidSecName; decide)
    · exact (show ValidSecName "PRUNE" by unfold ValidSecName; decide)
    · exact (show ValidSecName "ENVIRONMENT" by unfold ValidSecName; decide)

theorem readMerge_fix (h u : String) (R : IniState) (hR : ValidReader R)
    (hh : ValidVal h) (hu : ValidVal u) :
    readMerge h u (readMerge h u (readMerge h u R))
      = readMerge h u (readMerge h u R) := by
  have hS1 : ValidState (readMerge h u R) :=
    validState_readMerge h u R hR hh hu
  have hS2 : ValidState (readMerge h u (readMerge h u R)) :=
    validState_readMerge h u _ hS1.1 hh hu
  have hD5k : (loadDefaultValues h u).defaults.map Prod.fst
      = ["reponame", "repopath", "timestamp", "ssh", "prune"] := rfl
  have hDn : (loadDefaultValues h u).sections.map Prod.fst
      = ["SSH", "BACKUP", "PRUNE", "ENVIRONMENT"] := rfl
  have hsecs : (loadDefaultValues h u).sections
      = [("SSH",
            [("remoteuser", u), ("remotehost", h), ("port", "22")]),
          ("BACKUP",
            [("verbose", "True"), ("stats", "True"), ("list", "True"),
              ("show-rc", "True"), ("exclude-caches", "True"),
              ("filter", "AME"), ("compression", "lz4")]),
          ("PRUNE",
            [("verbose", "False"), ("stats", "True"), ("list", "True"),
              ("show-rc", "True"), ("keep-daily", "7"),
              ("keep-weekly", "4"), ("keep-monthly", "6")]),
          ("ENVIRONMENT", [("keyfile", NONE)])] := rfl
  have hS1d : (readMerge h u R).defaults
      = gFold (loadDefaultValues h u).defaults R.defaults :=
    congrArg IniState.defaults (readMerge_eq h u R hR)
  have habs : ∀ x, keyMem (gFold (loadDefaultValues h u).defaults
        (readMerge h u R).defaults) x
      = keyMem (readMerge h u R).defaults x := by
    intro x
    rw [keyMem_gFold]
    rw [hS1d, keyMem_gFold]
    rcases hq : keyMem (loadDefaultValues h u).defaults x with _ | _ <;> rfl
  have hnd1 : ((readMerge h u R).defaults.map Prod.fst).Nodup :=
    hS1.1.2.2.1.1
  rw [readMerge_eq h u (readMerge h u (readMerge h u R)) hS2.1]
  rw [readMerge_eq h u (readMerge h u R) hS1.1]
  dsimp only
  congr 1
  · exact gFold_replay _ _ (by rw [hD5k]; decide) hnd1
  · apply List.map_congr_left
    intro p hp
    have hP : (fun kv : String × String =>
          !keyMem (gFold (loadDefaultValues h u).defaults
            (readMerge h u R).defaults) kv.1)
        = (fun kv : String × String =>
          !keyMem (readMerge h u R).defaults kv.1) :=
      funext fun kv => by rw [habs kv.1]
    rw [hP]
    rw [ownOf_mk_map
      (gFold (loadDefaultValues h u).defaults (readMerge h u R).defaults)
      (loadDefaultValues h u).sections
      (fun q => gFold q.2 ((ownOf (readMerge h u R) q.1).filter
        (fun kv => !keyMem (readMerge h u R).defaults kv.1)))
      (by rw [hDn]; decide) p hp]
    have hbase : (p.2.map Prod.fst).Nodup := by
      rw [hsecs] at hp
      simp only [List.mem_cons, List.not_mem_nil, or_false] at hp
      rcases hp with hp | hp | hp | hp <;> rw [hp]
      · exact (by decide :
          (["remoteuser", "remotehost", "port"] : List String).Nodup)
      · exact (by decide :
          (["verbose", "stats", "list", "show-rc", "exclude-caches",
            "filter", "compression"] : List String).Nodup)
      · exact (by decide :
          (["verbose", "stats", "list", "show-rc", "keep-daily",
            "keep-weekly", "keep-monthly"] : List String).Nodup)
      · exact (by decide : (["keyfile"] : List String).Nodup)
    have hrd : (((ownOf (readMerge h u R) p.1)).map Prod.fst).Nodup :=
      ownOf_nodup _ _ hS1.1
    exact congrArg (fun l => (p.1, l))
      (gFold_filter_idem p.2
        (fun x => !keyMem (readMerge h u R).defaults x)
        (ownOf (readMerge h u R) p.1) hbase hrd)

theorem filter_keys_nodup (l : List (String × String))
    (P : String × String → Bool) (h : (l.map Prod.fst).Nodup) :
    ((l.filter P).map Prod.fst).Nodup := by
  have hsub : List.Sublist ((l.filter P).map Prod.fst) (l.map Prod.fst) :=
    List.Sublist.map Prod.fst (List.filter_sublist l)
  exact List.Nodup.sublist hsub h

theorem keyMem_filter_false (l : List (String × String))
    (P : String × String → Bool) (k : String) (h : keyMem l k = false) :
    keyMem (l.filter P) k = false := by
  apply (keyMem_false_iff _ _).mpr
  intro p hp
  exact (keyMem_false_iff l k).mp h p (List.mem_of_mem_filter hp)

theorem lookupOpt_of_mem_nodup (l : List (String × String)) (k v : String)
    (hm : (k, v) ∈ l) (hnd : (l.map Prod.fst).Nodup) :
    lookupOpt l k = some v := by
  rw [lookupOpt, find?_fst_self2 l hnd k v hm]
  rfl

theorem schema_items_nodup (h u : String) :
    ∀ p ∈ (loadDefaultValues h u).sections, (p.2.map Prod.fst).Nodup := by
  intro p hp
  rw [show (loadDefaultValues h u).sections
      = [("SSH",
            [("remoteuser", u), ("remotehost", h), ("port", "22")]),
          ("BACKUP",
            [("verbose", "True"), ("stats", "True"), ("list", "True"),
              ("show-rc", "True"), ("exclude-caches", "True"),
              ("filter", "AME"), ("compression", "lz4")]),
          ("PRUNE",
            [("verbose", "False"), ("stats", "True"), ("list", "True"),
              ("show-rc", "True"), ("keep-daily", "7"),
              ("keep-weekly", "4"), ("keep-monthly", "6")]),
          ("ENVIRONMENT", [("keyfile", NONE)])] from rfl] at hp
  simp only [List.mem_cons, List.not_mem_nil, or_false] at hp
  rcases hp with hp | hp | hp | hp <;> rw [hp]
  · exact (by decide :
      (["remoteuser", "remotehost", "port"] : List String).Nodup)
  · exact (by decide :
      (["verbose", "stats", "list", "show-rc", "exclude-caches",
        "filter", "compression"] : List String).Nodup)
  · exact (by decide :
      (["verbose", "stats", "list", "show-rc", "keep-daily",
        "keep-weekly", "keep-monthly"] : List String).Nodup)
  · exact (by decide : (["keyfile"] : List String).Nodup)

/-- Claim C1 (amended): `read` followed by `write` becomes idempotent one
pass later than the spec says: for any valid reader state (the parse of any
well-formed config file), the SECOND read+write cycle's output is a
byte-for-byte fixed point of the cycle, while the first cycle's output need
not be (see the counterexample). -/
theorem read_write_idempotent_after_second_pass (hostname user : String)
    (R : IniState) (hR : ValidReader R) (hh : ValidVal hostname)
    (hu : ValidVal user) :
    ∃ f2 : String,
      readCycle hostname user
          (writeValues (readMerge hostname user R)) = some f2 ∧
      readCycle hostname user f2 = some f2 := by
  have hS1 : ValidState (readMerge hostname user R) :=
    validState_readMerge hostname user R hR hh hu
  have hS2 : ValidState (readMerge hostname user
      (readMerge hostname user R)) :=
    validState_readMerge hostname user _ hS1.1 hh hu
  refine ⟨writeValues (readMerge hostname user
    (readMerge hostname user R)), ?_, ?_⟩
  · rw [readCycle, parse_write_roundtrip _ hS1]
    rfl
  · rw [readCycle, parse_write_roundtrip _ hS2]
    rw [show Option.map
        (fun rdr => writeValues (readMerge hostname user rdr))
        (some (readMerge hostname user (readMerge hostname user R)))
      = some (writeValues (readMerge hostname user
          (readMerge hostname user (readMerge hostname user R))))
      from rfl]
    rw [readMerge_fix hostname user R hR hh hu]

theorem read_write_idempotent_after_second_pass_witness :
    ∃ f2 : String,
      readCycle "host" "user"
          (writeValues (readMerge "host" "user"
            { defaults := [("repopath", "/backups")]
              sections := [("BACKUP", [("ssh", "yes")])] })) = some f2 ∧
      readCycle "host" "user" f2 = some f2 :=
  read_write_idempotent_after_second_pass "host" "user"
    { defaults := [("repopath", "/backups")]
      sections := [("BACKUP", [("ssh", "yes")])] }
    (by
      unfold ValidReader ValidItems ValidKey ValidVal
      refine ⟨by decide, by decide, ⟨by decide, by decide⟩, by decide⟩)
    (by unfold ValidVal; decide) (by unfold ValidVal; decide)

/-- Claim C2 (amended): after one repair pass over any valid reader state,
(1) the section names of the result are exactly the schema's four - any
unknown section is dropped; (2) a schema DEFAULT key absent from the file's
DEFAULT section gets its schema default; (3) a schema section key absent
from the file's copy of that section gets its schema default; but (4) a key
of a known section that is unknown to the schema is NOT dropped: it is
preserved with its file value, contradicting the claim's second sentence. -/
theorem schema_healing_sections_and_keys (h u : String) (R : IniState)
    (hR : ValidReader R) :
    ((readMerge h u R).sections.map Prod.fst
        = ["SSH", "BACKUP", "PRUNE", "ENVIRONMENT"]) ∧
    (∀ k v : String, (k, v) ∈ (loadDefaultValues h u).defaults →
      keyMem R.defaults k = false →
      lookupOpt (readMerge h u R).defaults k = some v) ∧
    (∀ p ∈ (loadDefaultValues h u).sections, ∀ k v : String,
      (k, v) ∈ p.2 → keyMem (ownOf R p.1) k = false →
      lookupOpt (ownOf (readMerge h u R) p.1) k = some v) ∧
    (∀ p ∈ (loadDefaultValues h u).sections, ∀ k w : String,
      lookupOpt (ownOf R p.1) k = some w →
      keyMem R.defaults k = false → keyMem p.2 k = false →
      lookupOpt (ownOf (readMerge h u R) p.1) k = some w) := by
  obtain ⟨hndn, hdnm, hdi, hsi⟩ := hR
  have hR2 : ValidReader R := ⟨hndn, hdnm, hdi, hsi⟩
  have hfix := readMerge_eq h u R hR2
  have hDn : (loadDefaultValues h u).sections.map Prod.fst
      = ["SSH", "BACKUP", "PRUNE", "ENVIRONMENT"] := rfl
  have hD5k : (loadDefaultValues h u).defaults.map Prod.fst
      = ["reponame", "repopath", "timestamp", "ssh", "prune"] := rfl
  refine ⟨?_, ?_, ?_, ?_⟩
  · rw [hfix]
    dsimp only
    rw [map_fst_keep, hDn]
  · intro k v hkv hmem
    rw [show (readMerge h u R).defaults
        = gFold (loadDefaultValues h u).defaults R.defaults
      from congrArg IniState.defaults hfix]
    rw [lookupOpt_gFold _ _ _ hdi.1]
    rw [lookupOpt_eq_none_of_keyMem_false _ _ hmem]
    rw [show Option.or none (lookupOpt (loadDefaultValues h u).defaults k)
        = lookupOpt (loadDefaultValues h u).defaults k from rfl]
    exact lookupOpt_of_mem_nodup _ k v hkv (by rw [hD5k]; decide)
  · intro p hp k v hkv hmem
    rw [hfix]
    rw [ownOf_mk_map
      (gFold (loadDefaultValues h u).defaults R.defaults)
      (loadDefaultValues h u).sections
      (fun q => gFold q.2 ((ownOf R q.1).filter
        (fun kv => !keyMem R.defaults kv.1)))
      (by rw [hDn]; decide) p hp]
    rw [lookupOpt_gFold _ _ _
      (filter_keys_nodup _ _ (ownOf_nodup R p.1 hR2))]
    rw [lookupOpt_eq_none_of_keyMem_false _ _
      (keyMem_filter_false _ _ _ hmem)]
    rw [show Option.or none (lookupOpt p.2 k) = lookupOpt p.2 k from rfl]
    exact lookupOpt_of_mem_nodup p.2 k v hkv (schema_items_nodup h u p hp)
  · intro p hp k w hlook hd hns
    rw [hfix]
    rw [ownOf_mk_map
      (gFold (loadDefaultValues h u).defaults R.defaults)
      (loadDefaultValues h u).sections
      (fun q => gFold q.2 ((ownOf R q.1).filter
        (fun kv => !keyMem R.defaults kv.1)))
      (by rw [hDn]; decide) p hp]
    rw [lookupOpt_gFold _ _ _
      (filter_keys_nodup _ _ (ownOf_nodup R p.1 hR2))]
    rw [lookupOpt] at hlook
    obtain ⟨pr, hpr, hpre⟩ := Option.map_eq_some'.mp hlook
    have hrk : pr.1 = k := find?_key_eq _ _ _ hpr
    have hkeep := find?_filter_keep (ownOf R p.1) _
      (fun kv => !keyMem R.defaults kv.1) pr hpr (by
        show (!keyMem R.defaults pr.1) = true
        rw [hrk, hd]
        rfl)
    rw [lookupOpt, hkeep]
    rw [show Option.map (fun pq : String × String => pq.2) (some pr)
        = some pr.2 from rfl]
    rw [hpre]
    rfl

theorem schema_healing_sections_and_keys_witness :
    ((readMerge "host" "user"
        { defaults := []
          sections := [("JUNK", [("a", "1")]),
            ("BACKUP", [("foo", "bar")])] }).sections.map Prod.fst
      = ["SSH", "BACKUP", "PRUNE", "ENVIRONMENT"]) ∧
    lookupOpt (ownOf (readMerge "host" "user"
        { defaults := []
          sections := [("JUNK", [("a", "1")]),
            ("BACKUP", [("foo", "bar")])] }) "BACKUP") "foo"
      = some "bar" := by
  have hall := schema_healing_sections_and_keys "host" "user"
    { defaults := []
      sections := [("JUNK", [("a", "1")]), ("BACKUP", [("foo", "bar")])] }
    (by
      unfold ValidReader ValidItems ValidKey ValidVal
      refine ⟨by decide, by decide, ⟨by decide, by decide⟩, by decide⟩)
  refine ⟨hall.1, ?_⟩
  exact hall.2.2.2
    ("BACKUP",
      [("verbose", "True"), ("stats", "True"), ("list", "True"),
        ("show-rc", "True"), ("exclude-caches", "True"),
        ("filter", "AME"), ("compression", "lz4")])
    (by decide) "foo" "bar" (by decide) (by decide) (by decide)

end Borgini
